import Mathlib

set_option maxHeartbeats 1000000

/- Shallow embedding of LibSurgeon's Ghidra post-processing utilities
   (src/ghidra_common.py and src/ghidra_decompile_elf.py).

   Python strings are modelled as `List Char`.  The scripts run inside
   Ghidra's Jython (Python 2) interpreter, so the regex classes \w and \s
   are the ASCII ones; `Char.isAlphanum`, `Char.isLower`, ... in Lean are
   likewise ASCII checks. -/

/-- ASCII `\s` (Python 2 `re` without `re.UNICODE`): space, tab, newline,
carriage return, vertical tab, form feed. Also the character set stripped
by Python's `str.strip()`. -/
def pyIsSpace (c : Char) : Bool :=
  c = ' ' || c = '\t' || c = '\n' || c = '\r' || c = '\x0b' || c = '\x0c'

/-- ASCII `\w`: letters, digits, underscore. -/
def isWordChar (c : Char) : Bool := c.isAlphanum || c = '_'

/-- Python `str.strip()`: remove whitespace from both ends. -/
def pyStrip (s : List Char) : List Char :=
  ((s.dropWhile pyIsSpace).reverse.dropWhile pyIsSpace).reverse

/-- Python `needle in haystack` (substring containment). -/
def pyContains (needle : List Char) : List Char → Bool
  | [] => needle.isPrefixOf []
  | c :: t => needle.isPrefixOf (c :: t) || pyContains needle t

/-- Python `s.lower()` (ASCII case folding, as in Jython byte strings). -/
def pyLower (s : List Char) : List Char := s.map Char.toLower

/-- Table `GHIDRA_TYPE_MAP` from src/ghidra_common.py lines 19-52, in source
(insertion) order, which is the order `dict.items()` iterates it. -/
def GHIDRA_TYPE_MAP : List (List Char × List Char) :=
  [("undefined".toList, "unk8_t".toList),
   ("undefined1".toList, "unk8_t".toList),
   ("undefined2".toList, "unk16_t".toList),
   ("undefined3".toList, "unk32_t".toList),
   ("undefined4".toList, "unk32_t".toList),
   ("undefined5".toList, "unk64_t".toList),
   ("undefined6".toList, "unk64_t".toList),
   ("undefined7".toList, "unk64_t".toList),
   ("undefined8".toList, "unk64_t".toList),
   ("byte".toList, "uint8_t".toList),
   ("ubyte".toList, "uint8_t".toList),
   ("sbyte".toList, "int8_t".toList),
   ("word".toList, "uint16_t".toList),
   ("sword".toList, "int16_t".toList),
   ("dword".toList, "uint32_t".toList),
   ("sdword".toList, "int32_t".toList),
   ("qword".toList, "uint64_t".toList),
   ("sqword".toList, "int64_t".toList),
   ("uint".toList, "uint32_t".toList),
   ("ushort".toList, "uint16_t".toList),
   ("ulong".toList, "uint32_t".toList),
   ("ulonglong".toList, "uint64_t".toList),
   ("longlong".toList, "int64_t".toList),
   ("uchar".toList, "uint8_t".toList),
   ("schar".toList, "int8_t".toList),
   ("addr".toList, "void *".toList),
   ("pointer".toList, "void *".toList)]

/-- Lookup `if base_type in GHIDRA_TYPE_MAP: base_type = GHIDRA_TYPE_MAP[base_type]`. -/
def lookupGhidraType (b : List Char) : List Char :=
  (GHIDRA_TYPE_MAP.lookup b).getD b

/-- Function `normalize_ghidra_type` from src/ghidra_common.py lines 84-101.
`type_str.count("*")`, `type_str.replace("*", "").strip()`, table lookup,
then `base_type + " " + "*" * ptr_count` when any pointer stars were seen. -/
def normalize_ghidra_type (type_str : List Char) : List Char :=
  if type_str = [] then type_str
  else
    let ptr_count := type_str.count '*'
    let base_type := pyStrip (type_str.filter (fun c => c != '*'))
    let base_type := lookupGhidraType base_type
    if 0 < ptr_count then base_type ++ ' ' :: List.replicate ptr_count '*'
    else base_type

-- ============================================================
-- Claim C6: pointer arity preservation in normalize_ghidra_type
-- ============================================================

theorem count_eq_zero_of_not_mem_star {b : List Char} (h : '*' ∉ b) :
    b.count '*' = 0 := List.count_eq_zero.mpr h

theorem filter_star_of_not_mem {b : List Char} (h : '*' ∉ b) :
    b.filter (fun c => c != '*') = b := by
  apply List.filter_eq_self.mpr
  intro a ha
  simp only [bne_iff_ne, ne_eq, decide_eq_true_eq]
  exact fun hc => h (hc ▸ ha)

theorem filter_star_replicate (n : Nat) :
    (List.replicate n '*').filter (fun c => c != '*') = [] := by
  induction n with
  | zero => rfl
  | succ k ih => simp [List.replicate_succ, ih]

/-- C6. For a star-free base `b` followed by `n` asterisks,
`normalize_ghidra_type` maps only the (stripped) base through the type
table and re-appends exactly `n` asterisks; in particular
`normalize_ghidra_type "undefined4 **"` is the normalized base of
`"undefined4"` followed by `" **"`. -/
theorem claim_C6_pointer_arity :
    (∀ (b : List Char) (n : Nat), '*' ∉ b →
      normalize_ghidra_type (b ++ List.replicate n '*') =
        (if 0 < n then lookupGhidraType (pyStrip b) ++ ' ' :: List.replicate n '*'
         else lookupGhidraType (pyStrip b))) ∧
    normalize_ghidra_type ("undefined4 **".toList) =
      normalize_ghidra_type ("undefined4".toList) ++ " **".toList := by
  constructor
  · intro b n hb
    by_cases hnil : b ++ List.replicate n '*' = []
    · rcases List.append_eq_nil.mp hnil with ⟨hb0, hr0⟩
      have hn : n = 0 := by
        have h := congrArg List.length hr0
        simp at h
        exact h
      subst hb0 hn
      decide
    · unfold normalize_ghidra_type
      rw [if_neg hnil]
      have hcount : (b ++ List.replicate n '*').count '*' = n := by
        rw [List.count_append, count_eq_zero_of_not_mem_star hb]
        simp [List.count_replicate]
      have hfilter : (b ++ List.replicate n '*').filter (fun c => c != '*') = b := by
        rw [List.filter_append, filter_star_of_not_mem hb, filter_star_replicate,
          List.append_nil]
      rw [hcount, hfilter]
  · decide

/-- Witness for C6: the universally quantified part applied at the concrete
base `"undefined4 "` with two asterisks. -/
theorem claim_C6_pointer_arity_witness :
    normalize_ghidra_type ("undefined4 ".toList ++ List.replicate 2 '*') =
      (if 0 < 2 then
        lookupGhidraType (pyStrip ("undefined4 ".toList)) ++ ' ' :: List.replicate 2 '*'
       else lookupGhidraType (pyStrip ("undefined4 ".toList))) :=
  claim_C6_pointer_arity.1 ("undefined4 ".toList) 2 (by decide)

-- ============================================================
-- Claim C3 (part): idempotence region of normalize_ghidra_type
-- ============================================================

theorem lookup_mem_pairs {α β : Type} [BEq α] [LawfulBEq α] :
    ∀ (l : List (α × β)) (a : α) (b : β), l.lookup a = some b → (a, b) ∈ l := by
  intro l
  induction l with
  | nil => intro a b h; simp [List.lookup] at h
  | cons p t ih =>
    intro a b h
    by_cases hpa : a = p.1
    · have hbeq : (a == p.1) = true := beq_iff_eq.mpr hpa
      rw [List.lookup, hbeq] at h
      simp only [Option.some.injEq] at h
      exact List.mem_cons.mpr (Or.inl (by rw [hpa, ← h]))
    · have hbeq : (a == p.1) = false := beq_eq_false_iff_ne.mpr hpa
      rw [List.lookup, hbeq] at h
      exact List.mem_cons_of_mem p (ih a b h)

theorem dropWhile_head_not {p : Char → Bool} :
    ∀ (l : List Char) (c : Char) (t : List Char),
      l.dropWhile p = c :: t → p c = false := by
  intro l
  induction l with
  | nil => intro c t h; simp [List.dropWhile] at h
  | cons a l ih =>
    intro c t h
    rw [List.dropWhile_cons] at h
    by_cases hpa : p a
    · rw [if_pos hpa] at h; exact ih c t h
    · rw [if_neg hpa] at h
      injection h with h1 _
      rw [← h1]
      exact Bool.of_not_eq_true hpa

theorem dropWhile_dropWhile {p : Char → Bool} (l : List Char) :
    (l.dropWhile p).dropWhile p = l.dropWhile p := by
  cases hd : l.dropWhile p with
  | nil => rfl
  | cons c t =>
    rw [List.dropWhile_cons, dropWhile_head_not l c t hd]
    simp

theorem pyStrip_head_not :
    ∀ (s : List Char) (c : Char) (t : List Char),
      pyStrip s = c :: t → pyIsSpace c = false := by
  intro s c t h
  have hpre : pyStrip s <+: s.dropWhile pyIsSpace := by
    unfold pyStrip
    have hsuf : ((s.dropWhile pyIsSpace).reverse.dropWhile pyIsSpace) <:+
        (s.dropWhile pyIsSpace).reverse := List.dropWhile_suffix _
    have h2 := List.reverse_prefix.mpr hsuf
    simpa using h2
  rw [h] at hpre
  rcases hpre with ⟨r, hr⟩
  cases hd : s.dropWhile pyIsSpace with
  | nil => rw [hd] at hr; simp at hr
  | cons a u =>
    rw [hd] at hr
    have hca : c = a := by
      have h3 := congrArg (fun l => l.head?) hr
      simpa using h3
    rw [hca]
    exact dropWhile_head_not s a u hd

theorem pyStrip_idem (s : List Char) : pyStrip (pyStrip s) = pyStrip s := by
  have h1 : (pyStrip s).dropWhile pyIsSpace = pyStrip s := by
    cases hd : pyStrip s with
    | nil => rfl
    | cons c t =>
      rw [List.dropWhile_cons, pyStrip_head_not s c t hd]
      simp
  show ((((pyStrip s).dropWhile pyIsSpace).reverse).dropWhile pyIsSpace).reverse = pyStrip s
  rw [h1]
  have h2 : (pyStrip s).reverse = (s.dropWhile pyIsSpace).reverse.dropWhile pyIsSpace := by
    rw [pyStrip, List.reverse_reverse]
  rw [h2, dropWhile_dropWhile]
  rfl

theorem dropWhile_append_nonempty {p : Char → Bool} :
    ∀ (a b : List Char) (c : Char) (t : List Char),
      a.dropWhile p = c :: t → (a ++ b).dropWhile p = c :: t ++ b := by
  intro a
  induction a with
  | nil => intro b c t h; simp [List.dropWhile] at h
  | cons x a ih =>
    intro b c t h
    rw [List.dropWhile_cons] at h
    rw [List.cons_append, List.dropWhile_cons]
    by_cases hpx : p x
    · rw [if_pos hpx] at h ⊢; exact ih b c t h
    · rw [if_neg hpx] at h ⊢
      injection h with h1 h2
      rw [h1, h2]
      rfl

theorem pyStrip_append_space (s : List Char) :
    pyStrip (s ++ [' ']) = pyStrip s := by
  cases hd : s.dropWhile pyIsSpace with
  | nil =>
    have h1 : (s ++ [' ']).dropWhile pyIsSpace = [] := by
      induction s with
      | nil => decide
      | cons c t iht =>
        rw [List.dropWhile_cons] at hd
        by_cases hpc : pyIsSpace c
        · rw [List.cons_append, List.dropWhile_cons, if_pos hpc]
          exact iht (by rw [if_pos hpc] at hd; exact hd)
        · rw [if_neg hpc] at hd; simp at hd
    show ((((s ++ [' ']).dropWhile pyIsSpace).reverse).dropWhile pyIsSpace).reverse = _
    rw [h1, pyStrip, hd]
  | cons c t =>
    have h1 : (s ++ [' ']).dropWhile pyIsSpace = c :: t ++ [' '] :=
      dropWhile_append_nonempty s [' '] c t hd
    show ((((s ++ [' ']).dropWhile pyIsSpace).reverse).dropWhile pyIsSpace).reverse = _
    rw [h1, pyStrip, hd]
    have h2 : ((c :: t) ++ [' ']).reverse = ' ' :: (c :: t).reverse := by
      simp
    rw [h2, List.dropWhile_cons]
    norm_num [pyIsSpace]

theorem pyStrip_mem_subset {a : Char} {s : List Char} (h : a ∈ pyStrip s) : a ∈ s := by
  unfold pyStrip at h
  rw [List.mem_reverse] at h
  have h2 := (List.dropWhile_suffix pyIsSpace).subset h
  rw [List.mem_reverse] at h2
  exact (List.dropWhile_suffix pyIsSpace).subset h2

theorem ghidra_values_fixed :
    ∀ p ∈ GHIDRA_TYPE_MAP, normalize_ghidra_type p.2 = p.2 := by decide

theorem ghidra_values_stripped :
    ∀ p ∈ GHIDRA_TYPE_MAP, pyStrip p.2 = p.2 := by decide

theorem ghidra_values_starfree :
    ∀ p ∈ GHIDRA_TYPE_MAP,
      p.1 = "addr".toList ∨ p.1 = "pointer".toList ∨ p.2.count '*' = 0 := by decide

theorem ghidra_values_not_keys :
    ∀ p ∈ GHIDRA_TYPE_MAP, GHIDRA_TYPE_MAP.lookup p.2 = none := by decide

/-- Function `normalize_ghidra_type` is idempotent away from pointer tokens whose
base is a pointer placeholder (`addr`/`pointer`, which map to the two-word
type `void *`). -/
theorem normalize_ghidra_type_idem (t : List Char)
    (h : t.count '*' = 0 ∨
      (pyStrip (t.filter (fun c => c != '*')) ≠ "addr".toList ∧
       pyStrip (t.filter (fun c => c != '*')) ≠ "pointer".toList)) :
    normalize_ghidra_type (normalize_ghidra_type t) = normalize_ghidra_type t := by
  by_cases ht : t = []
  · subst ht; rfl
  · have hstar_notmem : '*' ∉ t.filter (fun c => c != '*') := by
      intro hmem
      have := (List.mem_filter.mp hmem).2
      simp at this
    have hb0_star : '*' ∉ pyStrip (t.filter (fun c => c != '*')) :=
      fun hmem => hstar_notmem (pyStrip_mem_subset hmem)
    set b0 := pyStrip (t.filter (fun c => c != '*')) with hb0
    -- facts about the looked-up base v
    have hv_facts : pyStrip (lookupGhidraType b0) = lookupGhidraType b0 ∧
        GHIDRA_TYPE_MAP.lookup (lookupGhidraType b0) = none ∧
        normalize_ghidra_type (lookupGhidraType b0) = lookupGhidraType b0 ∧
        (t.count '*' = 0 ∨ (lookupGhidraType b0).count '*' = 0) := by
      cases hl : GHIDRA_TYPE_MAP.lookup b0 with
      | none =>
        have hveq : lookupGhidraType b0 = b0 := by rw [lookupGhidraType, hl]; rfl
        refine ⟨by rw [hveq]; exact pyStrip_idem _, by rw [hveq]; exact hl, ?_, ?_⟩
        · rw [hveq]
          by_cases hb0nil : b0 = []
          · rw [hb0nil]; rfl
          · unfold normalize_ghidra_type
            rw [if_neg hb0nil, count_eq_zero_of_not_mem_star hb0_star]
            simp only [Nat.lt_irrefl, if_false]
            rw [filter_star_of_not_mem hb0_star, pyStrip_idem, lookupGhidraType, hl]
            rfl
        · right; rw [hveq]; exact count_eq_zero_of_not_mem_star hb0_star
      | some w =>
        have hveq : lookupGhidraType b0 = w := by rw [lookupGhidraType, hl]; rfl
        have hmem : (b0, w) ∈ GHIDRA_TYPE_MAP := lookup_mem_pairs _ b0 w hl
        have hstripped := ghidra_values_stripped _ hmem
        have hfixed := ghidra_values_fixed _ hmem
        have hnotkey := ghidra_values_not_keys _ hmem
        have hsf := ghidra_values_starfree _ hmem
        refine ⟨by rw [hveq]; exact hstripped, by rw [hveq]; exact hnotkey,
          by rw [hveq]; exact hfixed, ?_⟩
        rcases h with hn0 | ⟨ha, hp⟩
        · left; exact hn0
        · right
          rw [hveq]
          rcases hsf with h1 | h1 | h1
          · exact absurd h1 ha
          · exact absurd h1 hp
          · exact h1
    obtain ⟨hstrip_v, hlookup_v, hnorm_v, hcount_v⟩ := hv_facts
    by_cases hn : t.count '*' = 0
    · -- no pointer stars: normalize t = lookupGhidraType b0
      have hred : normalize_ghidra_type t = lookupGhidraType b0 := by
        unfold normalize_ghidra_type
        rw [if_neg ht, hn]
        simp only [Nat.lt_irrefl, if_false]
      rw [hred, hnorm_v]
    · -- pointer stars present: normalize t = v ++ ' ' :: stars
      have hnpos : 0 < t.count '*' := Nat.pos_of_ne_zero hn
      have hvstar : (lookupGhidraType b0).count '*' = 0 := by
        rcases hcount_v with h1 | h1
        · exact absurd h1 hn
        · exact h1
      have hvstar_notmem : '*' ∉ lookupGhidraType b0 := List.count_eq_zero.mp hvstar
      have hred : normalize_ghidra_type t =
          lookupGhidraType b0 ++ ' ' :: List.replicate (t.count '*') '*' := by
        unfold normalize_ghidra_type
        rw [if_neg ht]
        show (if 0 < t.count '*' then
            lookupGhidraType (pyStrip (t.filter (fun c => c != '*'))) ++
              ' ' :: List.replicate (t.count '*') '*'
          else lookupGhidraType (pyStrip (t.filter (fun c => c != '*')))) = _
        rw [if_pos hnpos]
      rw [hred]
      have hrnil : lookupGhidraType b0 ++ ' ' :: List.replicate (t.count '*') '*' ≠ [] := by
        intro hcon
        rcases List.append_eq_nil.mp hcon with ⟨_, h2⟩
        exact List.noConfusion h2
      unfold normalize_ghidra_type
      rw [if_neg hrnil]
      have hcount2 : (lookupGhidraType b0 ++ ' ' :: List.replicate (t.count '*') '*').count '*'
          = t.count '*' := by
        rw [List.count_append, hvstar, List.count_cons]
        simp [List.count_replicate]
      have hfilter2 : (lookupGhidraType b0 ++ ' ' :: List.replicate (t.count '*') '*').filter
          (fun c => c != '*') = lookupGhidraType b0 ++ [' '] := by
        rw [List.filter_append, filter_star_of_not_mem hvstar_notmem, List.filter_cons]
        simp only [filter_star_replicate]
        norm_num
        decide
      rw [hcount2, hfilter2]
      simp only [hnpos, if_true]
      rw [pyStrip_append_space, hstrip_v, lookupGhidraType, hlookup_v]
      rfl

-- ============================================================
-- Word-boundary substitution (re.sub with \b<key>\b) and
-- normalize_code_types (src/ghidra_common.py lines 104-115)
-- ============================================================

/-- Word-ness of the character following a position (`false` at end of
string): the right half of a `\b` zero-width test. -/
def nextIsWord : List Char → Bool
  | [] => false
  | d :: _ => isWordChar d

/-- Scanner for one `re.sub(r"\b" + re.escape(key) + r"\b", repl, s)` pass
(the keys of `GHIDRA_TYPE_MAP` are alphanumeric, so `re.escape` is the
identity on them).  `re.sub` scans `s` left to right over the ORIGINAL
text, replacing each non-overlapping match and resuming after the matched
text.  State: `skip` counts match characters still to be consumed (their
replacement is already emitted), `prevW` is the word-ness of the previous
original character (`false` at the start), which together with the
word-ness of the adjacent character decides the zero-width `\b` tests.
The guard `!key.isEmpty` is vacuous for this program: the source never
substitutes an empty pattern. -/
def subWordAux (key repl : List Char) : Nat → Bool → List Char → List Char
  | _, _, [] => []
  | skip+1, _, c :: rest => subWordAux key repl skip (isWordChar c) rest
  | 0, prevW, c :: rest =>
      if !key.isEmpty && key.isPrefixOf (c :: rest)
          && (prevW != isWordChar (key.headD 'a'))
          && (isWordChar (key.getLastD 'a') != nextIsWord ((c :: rest).drop key.length))
      then repl ++ subWordAux key repl (key.length - 1) (isWordChar c) rest
      else c :: subWordAux key repl 0 (isWordChar c) rest

/-- One full word-boundary substitution pass. -/
def subWord (key repl s : List Char) : List Char := subWordAux key repl 0 false s

/-- Function `normalize_code_types` from src/ghidra_common.py lines 104-115: apply
the word-boundary substitution for every `GHIDRA_TYPE_MAP` pair, in table
order. -/
def normalize_code_types (code : List Char) : List Char :=
  if code = [] then code
  else GHIDRA_TYPE_MAP.foldl (fun acc p => subWord p.1 p.2 acc) code

example : normalize_code_types "undefined4 x = (byte)y;".toList =
    "unk32_t x = (uint8_t)y;".toList := by decide

example : normalize_code_types "undefined44 mybyte byte4".toList =
    "undefined44 mybyte byte4".toList := by decide

example : normalize_code_types "addr-word".toList = "void *-uint16_t".toList := by decide

-- ============================================================
-- Token view of strings: maximal \w-runs and separator chars.
-- Since every GHIDRA_TYPE_MAP key consists of word characters only,
-- a \b<key>\b match is exactly a maximal word run equal to the key;
-- this token view drives the idempotence proof for normalize_code_types.
-- ============================================================

inductive STok : Type
  | word : List Char → STok
  | sep : Char → STok
deriving DecidableEq

def STok.chars : STok → List Char
  | .word w => w
  | .sep c => [c]

def STok.isGood : STok → Bool
  | .word w => !w.isEmpty && w.all isWordChar
  | .sep c => !isWordChar c

def STok.isWordB : STok → Bool
  | .word _ => true
  | .sep _ => false

def renderToks (ts : List STok) : List Char :=
  ts.foldr (fun t acc => t.chars ++ acc) []

/-- Tokenizer: split a string into maximal word runs and single
separator characters.  `acc` holds the reversed current word run. -/
def toksAux (acc : List Char) : List Char → List STok
  | [] => if acc.isEmpty then [] else [.word acc.reverse]
  | c :: rest =>
      if isWordChar c then toksAux (c :: acc) rest
      else if acc.isEmpty then .sep c :: toksAux [] rest
      else .word acc.reverse :: .sep c :: toksAux [] rest

def toks (s : List Char) : List STok := toksAux [] s

/-- The word runs of a token list. -/
def toksWords (ts : List STok) : List (List Char) :=
  ts.filterMap (fun t => match t with | .word w => some w | .sep _ => none)

/-- Adjacent tokens are never both word runs. -/
def TokChain (ts : List STok) : Prop :=
  List.Chain' (fun a b => a.isWordB = false ∨ b.isWordB = false) ts

def TokGood (ts : List STok) : Prop :=
  (∀ t ∈ ts, t.isGood = true) ∧ TokChain ts

theorem renderToks_cons (t : STok) (ts : List STok) :
    renderToks (t :: ts) = t.chars ++ renderToks ts := rfl

theorem renderToks_append (a b : List STok) :
    renderToks (a ++ b) = renderToks a ++ renderToks b := by
  induction a with
  | nil => rfl
  | cons t a ih => simp [renderToks_cons, ih, List.append_assoc]

theorem renderToks_toksAux :
    ∀ (s acc : List Char), renderToks (toksAux acc s) = acc.reverse ++ s := by
  intro s
  induction s with
  | nil =>
    intro acc
    rw [toksAux]
    by_cases ha : acc.isEmpty
    · rw [if_pos ha]
      have : acc = [] := List.isEmpty_iff.mp ha
      rw [this]
      rfl
    · rw [if_neg ha]
      simp [renderToks, STok.chars]
  | cons c rest ih =>
    intro acc
    rw [toksAux]
    by_cases hw : isWordChar c
    · rw [if_pos hw, ih]
      simp
    · rw [if_neg hw]
      by_cases ha : acc.isEmpty
      · rw [if_pos ha]
        have : acc = [] := List.isEmpty_iff.mp ha
        rw [this]
        simp [renderToks_cons, STok.chars, ih]
      · rw [if_neg ha]
        simp [renderToks_cons, STok.chars, ih]

/-- Tokenizing then rendering reproduces the string. -/
theorem renderToks_toks (s : List Char) : renderToks (toks s) = s :=
  renderToks_toksAux s []

theorem isEmpty_false_of_ne_nil {l : List Char} (h : l ≠ []) : l.isEmpty = false := by
  cases l with
  | nil => exact absurd rfl h
  | cons a t => rfl

theorem tokGood_toksAux :
    ∀ (s acc : List Char), acc.all isWordChar = true → TokGood (toksAux acc s) := by
  intro s
  induction s with
  | nil =>
    intro acc hacc
    rw [toksAux]
    by_cases ha : acc.isEmpty
    · rw [if_pos ha]; exact ⟨by intro t ht; simp at ht, List.chain'_nil⟩
    · rw [if_neg ha]
      refine ⟨?_, List.chain'_singleton _⟩
      intro t ht
      simp only [List.mem_singleton] at ht
      subst ht
      simp only [STok.isGood, Bool.and_eq_true]
      constructor
      · simp only [Bool.not_eq_true']
        refine isEmpty_false_of_ne_nil (fun hcon => ha ?_)
        rw [← List.reverse_reverse acc, hcon]
        rfl
      · rw [List.all_eq_true] at hacc ⊢
        intro x hx
        exact hacc x (List.mem_reverse.mp hx)
  | cons c rest ih =>
    intro acc hacc
    rw [toksAux]
    by_cases hw : isWordChar c
    · rw [if_pos hw]
      apply ih
      rw [List.all_cons, hw, Bool.true_and]
      exact hacc
    · rw [if_neg hw]
      have hsep : STok.isGood (.sep c) = true := by
        simp [STok.isGood, Bool.not_eq_true']
        exact Bool.of_not_eq_true hw
      have htail := ih [] rfl
      by_cases ha : acc.isEmpty
      · rw [if_pos ha]
        refine ⟨?_, ?_⟩
        · intro t ht
          rcases List.mem_cons.mp ht with h1 | h1
          · subst h1; exact hsep
          · exact htail.1 t h1
        · rw [TokChain, List.chain'_cons']
          exact ⟨fun y _ => Or.inl rfl, htail.2⟩
      · rw [if_neg ha]
        have hwgood : STok.isGood (.word acc.reverse) = true := by
          simp only [STok.isGood, Bool.and_eq_true]
          constructor
          · simp only [Bool.not_eq_true']
            refine isEmpty_false_of_ne_nil (fun hcon => ha ?_)
            rw [← List.reverse_reverse acc, hcon]
            rfl
          · rw [List.all_eq_true] at hacc ⊢
            intro x hx
            exact hacc x (List.mem_reverse.mp hx)
        refine ⟨?_, ?_⟩
        · intro t ht
          rcases List.mem_cons.mp ht with h1 | h1
          · subst h1; exact hwgood
          · rcases List.mem_cons.mp h1 with h2 | h2
            · subst h2; exact hsep
            · exact htail.1 t h2
        · rw [TokChain, List.chain'_cons']
          refine ⟨fun y hy => ?_, ?_⟩
          · simp only [List.head?_cons, Option.mem_def, Option.some.injEq] at hy
            subst hy
            exact Or.inr rfl
          · rw [List.chain'_cons']
            exact ⟨fun y _ => Or.inl rfl, htail.2⟩

theorem tokGood_toks (s : List Char) : TokGood (toks s) :=
  tokGood_toksAux s [] rfl

/-- Accumulator shift: feeding a run of word characters just extends the
current accumulated word. -/
theorem toksAux_shift :
    ∀ (w acc u : List Char), w.all isWordChar = true →
      toksAux acc (w ++ u) = toksAux (w.reverse ++ acc) u := by
  intro w
  induction w with
  | nil => intro acc u _; simp
  | cons c w ih =>
    intro acc u hall
    rw [List.all_cons, Bool.and_eq_true] at hall
    rw [List.cons_append, toksAux, if_pos hall.1, ih (c :: acc) u hall.2]
    simp

/-- Tokenizing a maximal word run followed by a non-word-headed tail. -/
theorem toks_word_append (w u : List Char) (hw : w.all isWordChar = true)
    (hne : w ≠ []) (hu : u = [] ∨ ∃ d u', u = d :: u' ∧ isWordChar d = false) :
    toks (w ++ u) = .word w :: toks u := by
  rw [toks, toksAux_shift w [] u hw, List.append_nil]
  have hrev : (w.reverse).isEmpty = false := by
    rw [List.isEmpty_eq_false_iff_exists_mem]
    rcases List.exists_mem_of_ne_nil w hne with ⟨x, hx⟩
    exact ⟨x, List.mem_reverse.mpr hx⟩
  rcases hu with h1 | ⟨d, u', h1, hd⟩
  · subst h1
    rw [toksAux, if_neg (by rw [hrev]; exact Bool.false_ne_true)]
    rw [List.reverse_reverse]
    rfl
  · subst h1
    rw [toksAux, if_neg (by rw [hd]; exact Bool.false_ne_true),
      if_neg (by rw [hrev]; exact Bool.false_ne_true), List.reverse_reverse]
    have htl : toks (d :: u') = .sep d :: toksAux [] u' := by
      rw [toks, toksAux, if_neg (by rw [hd]; exact Bool.false_ne_true), if_pos (by rfl)]
    rw [htl]

/-- Rendering a good token list and re-tokenizing gives it back. -/
theorem toks_renderToks : ∀ (ts : List STok), TokGood ts → toks (renderToks ts) = ts := by
  intro ts
  induction ts with
  | nil => intro _; rfl
  | cons t rest ih =>
    intro hg
    have hgrest : TokGood rest := ⟨fun x hx => hg.1 x (List.mem_cons_of_mem t hx), hg.2.tail⟩
    cases t with
    | sep c =>
      have hc : isWordChar c = false := by
        have := hg.1 (.sep c) (List.mem_cons_self _ _)
        simp only [STok.isGood, Bool.not_eq_true'] at this
        exact this
      rw [renderToks_cons]
      show toks (c :: renderToks rest) = _
      rw [toks, toksAux, if_neg (by rw [hc]; exact Bool.false_ne_true), if_pos (by rfl)]
      rw [← toks, ih hgrest]
    | word w =>
      have hwg := hg.1 (.word w) (List.mem_cons_self _ _)
      simp only [STok.isGood, Bool.and_eq_true, Bool.not_eq_true'] at hwg
      have hne : w ≠ [] := by
        intro hcon
        rw [hcon] at hwg
        simp at hwg
      have hu : renderToks rest = [] ∨
          ∃ d u', renderToks rest = d :: u' ∧ isWordChar d = false := by
        cases rest with
        | nil => left; rfl
        | cons t2 r2 =>
          cases t2 with
          | sep d =>
            right
            refine ⟨d, renderToks r2, ?_, ?_⟩
            · rw [renderToks_cons]; rfl
            · have := hgrest.1 (.sep d) (List.mem_cons_self _ _)
              simp only [STok.isGood, Bool.not_eq_true'] at this
              exact this
          | word w2 =>
            exfalso
            have hch := hg.2
            rw [TokChain, List.chain'_cons] at hch
            rcases hch.1 with h1 | h1 <;> simp [STok.isWordB] at h1
      rw [renderToks_cons]
      show toks (w ++ renderToks rest) = _
      rw [toks_word_append w _ hwg.2 hne hu, ih hgrest]

-- ============================================================
-- Behaviour of one substitution pass, token by token
-- ============================================================

/-- The characters a token contributes after one `\b<key>\b` pass. -/
def substTokChars (key repl : List Char) : STok → List Char
  | .word w => if w = key then repl else w
  | .sep c => [c]

def subToksChars (key repl : List Char) (ts : List STok) : List Char :=
  ts.foldr (fun t acc => substTokChars key repl t ++ acc) []

theorem subToksChars_cons (key repl : List Char) (t : STok) (ts : List STok) :
    subToksChars key repl (t :: ts) =
      substTokChars key repl t ++ subToksChars key repl ts := rfl

theorem toks_sep_cons (c : Char) (rest : List Char) (hc : isWordChar c = false) :
    toks (c :: rest) = .sep c :: toks rest := by
  rw [toks, toksAux, if_neg (by rw [hc]; exact Bool.false_ne_true), if_pos (by rfl)]
  rfl

theorem all_takeWhile_self (p : Char → Bool) (l : List Char) :
    (l.takeWhile p).all p = true := by
  rw [List.all_eq_true]
  intro x hx
  exact List.mem_takeWhile_imp hx

theorem getLastD_mem : ∀ (l : List Char) (a : Char), l ≠ [] → l.getLastD a ∈ l := by
  intro l
  induction l with
  | nil => intro a h; exact absurd rfl h
  | cons x t ih =>
    intro a _
    cases t with
    | nil => simp [List.getLastD]
    | cons y u =>
      rw [List.getLastD_cons]
      exact List.mem_cons_of_mem x (ih x (List.cons_ne_nil y u))

theorem key_head_word {key : List Char} (hk : key ≠ []) (hkw : key.all isWordChar = true) :
    isWordChar (key.headD 'a') = true := by
  cases key with
  | nil => exact absurd rfl hk
  | cons k0 kt =>
    rw [List.all_cons, Bool.and_eq_true] at hkw
    exact hkw.1

theorem key_last_word {key : List Char} (hk : key ≠ []) (hkw : key.all isWordChar = true) :
    isWordChar (key.getLastD 'a') = true := by
  rw [List.all_eq_true] at hkw
  exact hkw _ (getLastD_mem key 'a' hk)

/-- Scanning a separator character copies it and resets the word state. -/
theorem subWordAux_sep (key repl : List Char) (hk : key ≠ [])
    (hkw : key.all isWordChar = true) (c : Char) (rest : List Char) (pw : Bool)
    (hc : isWordChar c = false) :
    subWordAux key repl 0 pw (c :: rest) = c :: subWordAux key repl 0 false rest := by
  have hpre : key.isPrefixOf (c :: rest) = false := by
    cases key with
    | nil => exact absurd rfl hk
    | cons k0 kt =>
      have hk0 : isWordChar k0 = true := by
        rw [List.all_cons, Bool.and_eq_true] at hkw
        exact hkw.1
      have hne : (k0 == c) = false := by
        rw [beq_eq_false_iff_ne]
        intro he
        rw [he, hc] at hk0
        exact Bool.false_ne_true hk0
      simp [List.isPrefixOf, hne]
  rw [subWordAux, hpre, hc]
  simp

/-- Consuming the remainder of a match: the characters are skipped and the
word state is threaded through. -/
theorem subWordAux_skip (key repl : List Char) :
    ∀ (d : List Char) (pw : Bool) (u : List Char),
      subWordAux key repl d.length pw (d ++ u) =
        subWordAux key repl 0 (d.foldl (fun _ c => isWordChar c) pw) u := by
  intro d
  induction d with
  | nil => intro pw u; rfl
  | cons c d ih =>
    intro pw u
    show subWordAux key repl (d.length + 1) pw (c :: (d ++ u)) = _
    rw [subWordAux]
    rw [ih (isWordChar c) u]
    rfl

theorem foldl_lastW_true :
    ∀ (d : List Char), d.all isWordChar = true →
      d.foldl (fun _ c => isWordChar c) true = true := by
  intro d
  induction d with
  | nil => intro _; rfl
  | cons c d ih =>
    intro hall
    rw [List.all_cons, Bool.and_eq_true] at hall
    rw [List.foldl_cons, hall.1]
    exact ih hall.2

/-- Inside a word run with the previous character a word character, no new
match can start; characters are copied unchanged. -/
theorem subWordAux_copy_word (key repl : List Char) (hk : key ≠ [])
    (hkw : key.all isWordChar = true) :
    ∀ (d u : List Char), d.all isWordChar = true →
      subWordAux key repl 0 true (d ++ u) = d ++ subWordAux key repl 0 true u := by
  intro d
  induction d with
  | nil => intro u _; rfl
  | cons c d ih =>
    intro u hall
    rw [List.all_cons, Bool.and_eq_true] at hall
    rw [List.cons_append, subWordAux]
    have hbd : (true != isWordChar (key.headD 'a')) = false := by
      rw [key_head_word hk hkw]
      rfl
    rw [hbd]
    simp only [Bool.and_false, Bool.false_and, Bool.and_true, if_false, Bool.false_eq_true]
    rw [hall.1]
    rw [ih u hall.2]
    rfl

/-- An all-word-character prefix of `w ++ u` fits inside the word run `w`
when `u` starts with a non-word character (or is empty). -/
theorem key_len_le_word {key w u : List Char} (hkw : key.all isWordChar = true)
    (hpre : key.isPrefixOf (w ++ u) = true)
    (hu : u = [] ∨ ∃ d u', u = d :: u' ∧ isWordChar d = false) :
    key.length ≤ w.length := by
  have hp : key <+: w ++ u := List.isPrefixOf_iff_prefix.mp hpre
  rcases hu with h1 | ⟨d, u', h1, hd⟩
  · subst h1
    rw [List.append_nil] at hp
    exact hp.length_le
  · subst h1
    by_contra hlt
    push_neg at hlt
    rcases hp with ⟨r, hr⟩
    have hget : (key ++ r)[w.length]? = (w ++ d :: u')[w.length]? := by rw [hr]
    have hrhs : (w ++ d :: u')[w.length]? = some d := by
      rw [List.getElem?_append_right (Nat.le_refl _)]
      simp
    have hlhs : (key ++ r)[w.length]? = key[w.length]? := by
      rw [List.getElem?_append_left hlt]
    have hkey : key[w.length]? = some d := by
      rw [← hlhs, hget, hrhs]
    have hmem : d ∈ key := by
      have := List.getElem?_eq_some_iff.mp hkey
      rcases this with ⟨hb, hv⟩
      exact hv ▸ List.getElem_mem _
    rw [List.all_eq_true] at hkw
    have := hkw d hmem
    rw [hd] at this
    exact Bool.false_ne_true this

/-- At a separator (or the end), the previous-character word state does not
matter. -/
theorem subWordAux_state_sep (key repl : List Char) (hk : key ≠ [])
    (hkw : key.all isWordChar = true) (u : List Char)
    (hu : u = [] ∨ ∃ d u', u = d :: u' ∧ isWordChar d = false) :
    subWordAux key repl 0 true u = subWordAux key repl 0 false u := by
  rcases hu with h1 | ⟨d, u', h1, hd⟩
  · subst h1; rfl
  · subst h1
    rw [subWordAux_sep key repl hk hkw d u' true hd,
      subWordAux_sep key repl hk hkw d u' false hd]

/-- A maximal word run equal to the key is replaced. -/
theorem subWordAux_match (key repl : List Char) (hk : key ≠ [])
    (hkw : key.all isWordChar = true) (u : List Char)
    (hu : u = [] ∨ ∃ d u', u = d :: u' ∧ isWordChar d = false) :
    subWordAux key repl 0 false (key ++ u) = repl ++ subWordAux key repl 0 true u := by
  obtain ⟨k0, kt, hkey⟩ : ∃ k0 kt, key = k0 :: kt := by
    cases key with
    | nil => exact absurd rfl hk
    | cons a b => exact ⟨a, b, rfl⟩
  subst hkey
  have hk0 : isWordChar k0 = true := by
    rw [List.all_cons, Bool.and_eq_true] at hkw
    exact hkw.1
  have hktall : kt.all isWordChar = true := by
    rw [List.all_cons, Bool.and_eq_true] at hkw
    exact hkw.2
  have hdrop : (k0 :: (kt ++ u)).drop (k0 :: kt).length = u := by
    show (k0 :: (kt ++ u)).drop (kt.length + 1) = u
    rw [List.drop_succ_cons]
    exact List.drop_left kt u
  have hnextu : nextIsWord u = false := by
    rcases hu with h1 | ⟨d, u', h1, hd⟩
    · subst h1; rfl
    · subst h1; simp [nextIsWord, hd]
  have hpre : (k0 :: kt).isPrefixOf (k0 :: (kt ++ u)) = true :=
    List.isPrefixOf_iff_prefix.mpr (List.prefix_append _ _)
  have hhead : isWordChar ((k0 :: kt).headD 'a') = true := hk0
  have hlast : isWordChar ((k0 :: kt).getLastD 'a') = true :=
    key_last_word hk hkw
  show subWordAux (k0 :: kt) repl 0 false (k0 :: (kt ++ u)) = _
  rw [subWordAux, hdrop, hnextu, hpre, hhead, hlast]
  have hcond : (!(k0 :: kt).isEmpty && true && (false != true) && (true != false)) = true := rfl
  rw [hcond, if_pos rfl]
  have hlen : (k0 :: kt).length - 1 = kt.length := rfl
  rw [hlen, hk0, subWordAux_skip (k0 :: kt) repl kt true u, foldl_lastW_true kt hktall]

/-- A maximal word run different from the key is copied unchanged. -/
theorem subWordAux_nomatch (key repl : List Char) (hk : key ≠ [])
    (hkw : key.all isWordChar = true) (w u : List Char)
    (hwall : w.all isWordChar = true) (hwne : w ≠ []) (hwk : w ≠ key)
    (hu : u = [] ∨ ∃ d u', u = d :: u' ∧ isWordChar d = false) :
    subWordAux key repl 0 false (w ++ u) = w ++ subWordAux key repl 0 true u := by
  obtain ⟨c, w', hw⟩ : ∃ c w', w = c :: w' := by
    cases w with
    | nil => exact absurd rfl hwne
    | cons a b => exact ⟨a, b, rfl⟩
  subst hw
  have hc : isWordChar c = true := by
    rw [List.all_cons, Bool.and_eq_true] at hwall
    exact hwall.1
  have hw'all : w'.all isWordChar = true := by
    rw [List.all_cons, Bool.and_eq_true] at hwall
    exact hwall.2
  have hcond : (!key.isEmpty && key.isPrefixOf (c :: (w' ++ u))
      && (false != isWordChar (key.headD 'a'))
      && (isWordChar (key.getLastD 'a')
          != nextIsWord ((c :: (w' ++ u)).drop key.length))) = false := by
    by_cases hpre : key.isPrefixOf (c :: (w' ++ u)) = true
    · have hlen : key.length ≤ (c :: w').length := by
        apply key_len_le_word hkw _ hu
        show key.isPrefixOf ((c :: w') ++ u) = true
        rw [List.cons_append]
        exact hpre
      have hlt : key.length < (c :: w').length := by
        rcases Nat.lt_or_ge key.length (c :: w').length with h1 | h1
        · exact h1
        · exfalso
          have heq : key.length = (c :: w').length := Nat.le_antisymm hlen h1
          have hp2 : key <+: (c :: w') ++ u := by
            rw [List.cons_append]
            exact List.isPrefixOf_iff_prefix.mp hpre
          rcases hp2 with ⟨r, hr⟩
          rcases List.append_inj hr heq with ⟨h2, _⟩
          exact hwk h2.symm
      have hdrop : (c :: (w' ++ u)).drop key.length =
          ((c :: w').drop key.length) ++ u := by
        rw [← List.cons_append]
        exact List.drop_append_of_le_length (Nat.le_of_lt hlt)
      obtain ⟨d, dr, hdr⟩ : ∃ d dr, (c :: w').drop key.length = d :: dr := by
        cases hdd : (c :: w').drop key.length with
        | nil =>
          exfalso
          have h5 := congrArg List.length hdd
          rw [List.length_drop] at h5
          simp only [List.length_nil] at h5
          omega
        | cons d dr => exact ⟨d, dr, rfl⟩
      have hdw : isWordChar d = true := by
        have hmem : d ∈ c :: w' := by
          have hsub := List.drop_subset key.length (c :: w')
          rw [hdr] at hsub
          exact hsub (List.mem_cons_self d dr)
        rw [List.all_eq_true] at hwall
        exact hwall d hmem
      have hnext : nextIsWord ((c :: (w' ++ u)).drop key.length) = true := by
        rw [hdrop, hdr]
        show isWordChar d = true
        exact hdw
      rw [hnext, key_last_word hk hkw]
      simp
    · have hpre' : key.isPrefixOf (c :: (w' ++ u)) = false :=
        Bool.of_not_eq_true hpre
      rw [hpre']
      simp
  show subWordAux key repl 0 false (c :: (w' ++ u)) = _
  rw [subWordAux, hcond, if_neg (by simp), hc,
    subWordAux_copy_word key repl hk hkw w' u hw'all]
  rfl

/-- One substitution pass acts token-wise on the string's word runs. -/
theorem subWord_eq_subToks_bounded (key repl : List Char) (hk : key ≠ [])
    (hkw : key.all isWordChar = true) :
    ∀ (n : Nat) (s : List Char), s.length ≤ n →
      subWordAux key repl 0 false s = subToksChars key repl (toks s) := by
  intro n
  induction n with
  | zero =>
    intro s hs
    have : s = [] := List.eq_nil_of_length_eq_zero (Nat.le_zero.mp hs)
    subst this
    rfl
  | succ n ih =>
    intro s hs
    cases s with
    | nil => rfl
    | cons c rest =>
      by_cases hw : isWordChar c
      · -- word run head
        have hsplit : c :: rest = (c :: rest.takeWhile isWordChar) ++
            rest.dropWhile isWordChar := by
          rw [List.cons_append, List.takeWhile_append_dropWhile]
        have hwall : (c :: rest.takeWhile isWordChar).all isWordChar = true := by
          rw [List.all_cons, hw, Bool.true_and]
          exact all_takeWhile_self isWordChar rest
        have hu : rest.dropWhile isWordChar = [] ∨
            ∃ d u', rest.dropWhile isWordChar = d :: u' ∧ isWordChar d = false := by
          cases hdd : rest.dropWhile isWordChar with
          | nil => left; rfl
          | cons d u' => right; exact ⟨d, u', rfl, dropWhile_head_not rest d u' hdd⟩
        have hulen : (rest.dropWhile isWordChar).length ≤ n := by
          have h1 : (rest.dropWhile isWordChar).length ≤ rest.length :=
            (List.dropWhile_suffix isWordChar).length_le
          have h2 : rest.length + 1 ≤ n + 1 := by
            simpa using hs
          omega
        have hiu := ih (rest.dropWhile isWordChar) hulen
        have htoks : toks (c :: rest) =
            .word (c :: rest.takeWhile isWordChar) :: toks (rest.dropWhile isWordChar) := by
          rw [hsplit]
          exact toks_word_append _ _ hwall (List.cons_ne_nil _ _) hu
        by_cases hwk : c :: rest.takeWhile isWordChar = key
        · rw [htoks, hwk, subToksChars_cons, hsplit, hwk,
            subWordAux_match key repl hk hkw _ hu,
            subWordAux_state_sep key repl hk hkw _ hu, hiu]
          simp [substTokChars]
        · rw [htoks, subToksChars_cons, hsplit,
            subWordAux_nomatch key repl hk hkw _ _ hwall
              (List.cons_ne_nil _ _) hwk hu,
            subWordAux_state_sep key repl hk hkw _ hu, hiu]
          simp [substTokChars, hwk]
      · -- separator head
        have hc : isWordChar c = false := Bool.of_not_eq_true hw
        have hrl : rest.length ≤ n := by
          simpa using hs
        rw [subWordAux_sep key repl hk hkw c rest false hc, ih rest hrl,
          toks_sep_cons c rest hc, subToksChars_cons]
        rfl

theorem subWord_eq_subToks (key repl : List Char) (hk : key ≠ [])
    (hkw : key.all isWordChar = true) (s : List Char) :
    subWord key repl s = subToksChars key repl (toks s) :=
  subWord_eq_subToks_bounded key repl hk hkw s.length s (Nat.le_refl _)

/-- If the key occurs as no word run, the pass is the identity. -/
theorem subToksChars_no_key (key repl : List Char) :
    ∀ (ts : List STok), key ∉ toksWords ts →
      subToksChars key repl ts = renderToks ts := by
  intro ts
  induction ts with
  | nil => intro _; rfl
  | cons t rest ih =>
    intro hno
    have hno' : key ∉ toksWords rest := by
      intro hmem
      apply hno
      cases t with
      | word w => exact List.mem_cons_of_mem w hmem
      | sep c => exact hmem
    rw [subToksChars_cons, renderToks_cons, ih hno']
    cases t with
    | sep c => rfl
    | word w =>
      have hwk : w ≠ key := by
        intro he
        exact hno (by rw [← he]; exact List.mem_cons_self w _)
      simp [substTokChars, STok.chars, hwk]

theorem subWord_noop (key repl : List Char) (hk : key ≠ [])
    (hkw : key.all isWordChar = true) (s : List Char)
    (hno : key ∉ toksWords (toks s)) : subWord key repl s = s := by
  rw [subWord_eq_subToks key repl hk hkw, subToksChars_no_key key repl _ hno,
    renderToks_toks]

/-- Token-level effect of one pass. -/
def tokSubF (key repl : List Char) : STok → List STok
  | .word w => if w = key then toks repl else [.word w]
  | .sep c => [.sep c]

theorem subToksChars_eq_render_bind (key repl : List Char) :
    ∀ (ts : List STok), subToksChars key repl ts =
      renderToks (ts.flatMap (tokSubF key repl)) := by
  intro ts
  induction ts with
  | nil => rfl
  | cons t rest ih =>
    rw [subToksChars_cons, List.flatMap_cons, renderToks_append, ih]
    cases t with
    | sep c => rfl
    | word w =>
      by_cases hwk : w = key
      · simp only [substTokChars, tokSubF, if_pos hwk, renderToks_toks]
      · simp only [substTokChars, tokSubF, if_neg hwk]
        simp [renderToks, STok.chars]

theorem tokGood_bind_sub (key repl : List Char) :
    ∀ (ts : List STok), TokGood ts → TokGood (ts.flatMap (tokSubF key repl)) := by
  intro ts
  induction ts with
  | nil => intro _; exact ⟨by intro t ht; simp at ht, List.chain'_nil⟩
  | cons t rest ih =>
    intro hg
    have hgrest : TokGood rest := ⟨fun x hx => hg.1 x (List.mem_cons_of_mem t hx), hg.2.tail⟩
    have ihrest := ih hgrest
    have hrepl := tokGood_toks repl
    constructor
    · intro t' ht'
      rw [List.flatMap_cons, List.mem_append] at ht'
      rcases ht' with h1 | h1
      · cases t with
        | sep c =>
          simp only [tokSubF, List.mem_singleton] at h1
          subst h1
          exact hg.1 _ (List.mem_cons_self _ _)
        | word w =>
          by_cases hwk : w = key
          · rw [tokSubF, if_pos hwk] at h1
            exact hrepl.1 t' h1
          · rw [tokSubF, if_neg hwk] at h1
            simp only [List.mem_singleton] at h1
            subst h1
            exact hg.1 _ (List.mem_cons_self _ _)
      · exact ihrest.1 t' h1
    · rw [List.flatMap_cons]
      cases t with
      | sep c =>
        show TokChain (.sep c :: rest.flatMap (tokSubF key repl))
        rw [TokChain, List.chain'_cons']
        exact ⟨fun y _ => Or.inl rfl, ihrest.2⟩
      | word w =>
        have hBchain : TokChain (tokSubF key repl (.word w)) := by
          by_cases hwk : w = key
          · rw [tokSubF, if_pos hwk]; exact hrepl.2
          · rw [tokSubF, if_neg hwk]; exact List.chain'_singleton _
        cases rest with
        | nil =>
          rw [List.flatMap_nil, List.append_nil]
          exact hBchain
        | cons t2 r2 =>
          have ht2sep : ∃ d, t2 = .sep d := by
            have hch := hg.2
            rw [TokChain, List.chain'_cons] at hch
            cases t2 with
            | sep d => exact ⟨d, rfl⟩
            | word w2 =>
              exfalso
              rcases hch.1 with h1 | h1 <;> simp [STok.isWordB] at h1
          rcases ht2sep with ⟨d, ht2⟩
          subst ht2
          have hbind2 : (STok.sep d :: r2).flatMap (tokSubF key repl) =
              .sep d :: r2.flatMap (tokSubF key repl) := by
            rw [List.flatMap_cons]
            rfl
          rw [hbind2]
          apply List.Chain'.append hBchain
          · rw [← hbind2]
            exact ihrest.2
          · intro x _ y hy
            simp only [List.head?_cons, Option.mem_def, Option.some.injEq] at hy
            subst hy
            exact Or.inr rfl

/-- Tokenization of the output of one pass. -/
theorem toks_subWord (key repl : List Char) (hk : key ≠ [])
    (hkw : key.all isWordChar = true) (s : List Char) :
    toks (subWord key repl s) = (toks s).flatMap (tokSubF key repl) := by
  rw [subWord_eq_subToks key repl hk hkw, subToksChars_eq_render_bind,
    toks_renderToks _ (tokGood_bind_sub key repl _ (tokGood_toks s))]

theorem toksWords_cons_word (w : List Char) (ts : List STok) :
    toksWords (.word w :: ts) = w :: toksWords ts := rfl

theorem toksWords_cons_sep (c : Char) (ts : List STok) :
    toksWords (.sep c :: ts) = toksWords ts := rfl

theorem toksWords_append (a b : List STok) :
    toksWords (a ++ b) = toksWords a ++ toksWords b := by
  rw [toksWords, List.filterMap_append]
  rfl

/-- Word runs after one pass: either a surviving run different from the
key, or a run contributed by the replacement text. -/
theorem mem_toksWords_bind_sub (key repl : List Char) :
    ∀ (ts : List STok) (w : List Char),
      w ∈ toksWords (ts.flatMap (tokSubF key repl)) →
        (w ∈ toksWords ts ∧ w ≠ key) ∨ w ∈ toksWords (toks repl) := by
  intro ts
  induction ts with
  | nil => intro w h; simp [toksWords] at h
  | cons t rest ih =>
    intro w h
    rw [List.flatMap_cons, toksWords_append, List.mem_append] at h
    rcases h with h1 | h1
    · cases t with
      | sep c => simp [tokSubF, toksWords] at h1
      | word w' =>
        by_cases hwk : w' = key
        · rw [tokSubF, if_pos hwk] at h1
          right
          exact h1
        · rw [tokSubF, if_neg hwk] at h1
          rw [show toksWords [STok.word w'] = [w'] from rfl, List.mem_singleton] at h1
          subst h1
          left
          exact ⟨List.mem_cons_self _ _, hwk⟩
    · rcases ih w h1 with ⟨h2, h3⟩ | h2
      · left
        refine ⟨?_, h3⟩
        cases t with
        | sep c => exact h2
        | word w' => exact List.mem_cons_of_mem _ h2
      · right
        exact h2

theorem tbl_keys_ok : ∀ p ∈ GHIDRA_TYPE_MAP, p.1 ≠ [] ∧ p.1.all isWordChar = true := by
  decide

theorem tbl_vals_no_keywords :
    ∀ p ∈ GHIDRA_TYPE_MAP, ∀ q ∈ GHIDRA_TYPE_MAP, p.1 ∉ toksWords (toks q.2) := by
  decide

/-- After folding the substitution passes of a key/value list over a
string, none of the processed keys survives as a word run — provided no
replacement text contains any of the keys as a word run. -/
theorem fold_subWord_inv :
    ∀ (l : List (List Char × List Char)) (c : List Char) (done : List (List Char)),
      (∀ p ∈ l, p.1 ≠ [] ∧ p.1.all isWordChar = true) →
      (∀ k ∈ done, k ∉ toksWords (toks c)) →
      (∀ p ∈ l, ∀ k, (k ∈ done ∨ k ∈ l.map Prod.fst) → k ∉ toksWords (toks p.2)) →
      ∀ k, (k ∈ done ∨ k ∈ l.map Prod.fst) →
        k ∉ toksWords (toks (l.foldl (fun acc p => subWord p.1 p.2 acc) c)) := by
  intro l
  induction l with
  | nil =>
    intro c done _ hdone _ k hk
    rcases hk with h1 | h1
    · exact hdone k h1
    · simp at h1
  | cons p l ih =>
    intro c done hkeys hdone hvals k hk
    rw [List.foldl_cons]
    have hp := hkeys p (List.mem_cons_self _ _)
    have hc' : ∀ k', k' ∈ done ++ [p.1] → k' ∉ toksWords (toks (subWord p.1 p.2 c)) := by
      intro k' hk' hmem
      rw [toks_subWord p.1 p.2 hp.1 hp.2] at hmem
      rcases mem_toksWords_bind_sub p.1 p.2 _ k' hmem with ⟨h2, h3⟩ | h2
      · rcases List.mem_append.mp hk' with h4 | h4
        · exact hdone k' h4 h2
        · rw [List.mem_singleton] at h4
          exact h3 h4
      · apply hvals p (List.mem_cons_self _ _) k' _ h2
        rcases List.mem_append.mp hk' with h4 | h4
        · left; exact h4
        · rw [List.mem_singleton] at h4
          right
          rw [h4, List.map_cons]
          exact List.mem_cons_self _ _
    apply ih (subWord p.1 p.2 c) (done ++ [p.1])
    · intro q hq
      exact hkeys q (List.mem_cons_of_mem p hq)
    · exact hc'
    · intro q hq k' hk'
      apply hvals q (List.mem_cons_of_mem p hq) k'
      rcases hk' with h1 | h1
      · rcases List.mem_append.mp h1 with h2 | h2
        · left; exact h2
        · rw [List.mem_singleton] at h2
          right
          rw [h2, List.map_cons]
          exact List.mem_cons_self _ _
      · right
        rw [List.map_cons]
        exact List.mem_cons_of_mem _ h1
    · rcases hk with h1 | h1
      · left
        exact List.mem_append.mpr (Or.inl h1)
      · rw [List.map_cons] at h1
        rcases List.mem_cons.mp h1 with h2 | h2
        · left
          refine List.mem_append.mpr (Or.inr ?_)
          rw [h2]
          exact List.mem_singleton.mpr rfl
        · right
          exact h2

theorem fold_subWord_noop :
    ∀ (l : List (List Char × List Char)) (c : List Char),
      (∀ p ∈ l, p.1 ≠ [] ∧ p.1.all isWordChar = true ∧ p.1 ∉ toksWords (toks c)) →
      l.foldl (fun acc p => subWord p.1 p.2 acc) c = c := by
  intro l
  induction l with
  | nil => intro c _; rfl
  | cons p l ih =>
    intro c h
    have hp := h p (List.mem_cons_self _ _)
    rw [List.foldl_cons, subWord_noop p.1 p.2 hp.1 hp.2.1 c hp.2.2]
    exact ih c (fun q hq => h q (List.mem_cons_of_mem p hq))

theorem normalize_code_types_idem (code : List Char) :
    normalize_code_types (normalize_code_types code) = normalize_code_types code := by
  have hinv : ∀ k ∈ GHIDRA_TYPE_MAP.map Prod.fst,
      k ∉ toksWords (toks (normalize_code_types code)) := by
    by_cases hc : code = []
    · subst hc
      intro k _ hmem
      have hnil : toks (normalize_code_types []) = [] := rfl
      rw [hnil] at hmem
      simp [toksWords] at hmem
    · intro k hk
      rw [normalize_code_types, if_neg hc]
      apply fold_subWord_inv GHIDRA_TYPE_MAP code []
        (fun p hp => tbl_keys_ok p hp)
        (by intro k' hk'; simp at hk')
        ?_ k (Or.inr hk)
      intro p hp k' hk'
      rcases hk' with h1 | h1
      · simp at h1
      · rw [List.mem_map] at h1
        rcases h1 with ⟨q, hq, hq1⟩
        rw [← hq1]
        exact tbl_vals_no_keywords q hq p hp
  conv_lhs => rw [normalize_code_types]
  by_cases h1 : normalize_code_types code = []
  · rw [if_pos h1]
  · rw [if_neg h1]
    apply fold_subWord_noop
    intro p hp
    have hko := tbl_keys_ok p hp
    refine ⟨hko.1, hko.2, ?_⟩
    exact hinv p.1 (List.mem_map.mpr ⟨p, hp, rfl⟩)

-- ============================================================
-- Claim C3: type-normalization idempotence
-- ============================================================

/-- C3 counterexample: the claim asserts idempotence of
`normalize_ghidra_type` for ALL inputs, but a pointer token whose base is
the placeholder `addr` (mapped to the two-word type `void *`) normalizes
to `"void * *"` and then again to `"void **"`, so applying the function
twice differs from applying it once. -/
theorem claim_C3_idempotence_cex :
    normalize_ghidra_type (normalize_ghidra_type ("addr *".toList)) ≠
      normalize_ghidra_type ("addr *".toList) := by decide

/-- C3 (amended). `normalize_code_types` is idempotent for all inputs;
`normalize_ghidra_type` is idempotent for every type token except pointer
tokens (at least one `*`) whose stripped base is the placeholder `addr` or
`pointer` — those map to `void *`, whose re-normalization collapses the
separated stars. -/
theorem claim_C3_idempotence_amended :
    (∀ code : List Char,
      normalize_code_types (normalize_code_types code) = normalize_code_types code) ∧
    (∀ t : List Char, (t.count '*' = 0 ∨
        (pyStrip (t.filter (fun c => c != '*')) ≠ "addr".toList ∧
         pyStrip (t.filter (fun c => c != '*')) ≠ "pointer".toList)) →
      normalize_ghidra_type (normalize_ghidra_type t) = normalize_ghidra_type t) :=
  ⟨normalize_code_types_idem, normalize_ghidra_type_idem⟩

/-- Witness for C3 (amended): the `normalize_ghidra_type` half applied to
the concrete pointer token `"byte *"`. -/
theorem claim_C3_idempotence_amended_witness :
    normalize_ghidra_type (normalize_ghidra_type ("byte *".toList)) =
      normalize_ghidra_type ("byte *".toList) :=
  claim_C3_idempotence_amended.2 ("byte *".toList) (by decide)

-- ============================================================
-- Claim C4: extract_function_signature (two implementations)
-- ============================================================

/-- Python `s.split(sep)` for a single-character separator. -/
def splitOnCharAux (sep : Char) (acc : List Char) : List Char → List (List Char)
  | [] => [acc.reverse]
  | c :: rest =>
      if c = sep then acc.reverse :: splitOnCharAux sep [] rest
      else splitOnCharAux sep (c :: acc) rest

def pySplitChar (sep : Char) (s : List Char) : List (List Char) :=
  splitOnCharAux sep [] s

/-- Model of `re.sub(r"\s+", " ", s)`: collapse every whitespace run to a single
space.  `inRun` records whether the previous character was whitespace. -/
def collapseSpacesAux : Bool → List Char → List Char
  | _, [] => []
  | inRun, c :: rest =>
      if pyIsSpace c then
        (if inRun then collapseSpacesAux true rest
         else ' ' :: collapseSpacesAux true rest)
      else c :: collapseSpacesAux false rest

def collapseSpaces (s : List Char) : List Char := collapseSpacesAux false s

/-- The signature-collection loop shared by both implementations: strip
each line; at the first line containing `{` keep only the part before the
brace and stop. -/
def sigLines : List (List Char) → List (List Char)
  | [] => []
  | line :: rest =>
      if line.contains '\x7b' then [pyStrip (line.takeWhile (fun c => c != '\x7b'))]
      else pyStrip line :: sigLines rest

/-- Function `extract_function_signature` from src/ghidra_common.py lines 515-549:
empty input gives None; lines up to the first `{` are joined and
whitespace-collapsed; an empty candidate or one ending in `;` gives None;
otherwise the type-normalized signature is returned. -/
def extract_function_signature (decompiled_code : List Char) : Option (List Char) :=
  if decompiled_code = [] then none
  else if sigLines (pySplitChar '\n' (pyStrip decompiled_code)) = [] then none
  else if (collapseSpaces (pyStrip (List.intercalate [' ']
        (sigLines (pySplitChar '\n' (pyStrip decompiled_code)))))).isEmpty
      || List.isSuffixOf [';'] (collapseSpaces (pyStrip (List.intercalate [' ']
        (sigLines (pySplitChar '\n' (pyStrip decompiled_code)))))) then none
  else some (normalize_code_types (collapseSpaces (pyStrip (List.intercalate [' ']
    (sigLines (pySplitChar '\n' (pyStrip decompiled_code)))))))

/-- Function `extract_function_signature` from src/ghidra_decompile_elf.py lines
498-528: the ELF copy, which has NO empty-candidate / trailing-semicolon
check — after joining and collapsing it normalizes and returns directly. -/
def extract_function_signature_elf (decompiled_code : List Char) : Option (List Char) :=
  if decompiled_code = [] then none
  else if sigLines (pySplitChar '\n' (pyStrip decompiled_code)) = [] then none
  else some (normalize_code_types (collapseSpaces (pyStrip (List.intercalate [' ']
    (sigLines (pySplitChar '\n' (pyStrip decompiled_code)))))))

theorem subWord_ne_nil (key repl : List Char) (hr : repl ≠ []) :
    ∀ (s : List Char), s ≠ [] → subWord key repl s ≠ [] := by
  intro s hs
  cases s with
  | nil => exact absurd rfl hs
  | cons c rest =>
    rw [subWord, subWordAux]
    split
    · intro hcon
      exact hr (List.append_eq_nil.mp hcon).1
    · exact List.cons_ne_nil _ _

theorem tbl_vals_ne_nil : ∀ p ∈ GHIDRA_TYPE_MAP, p.2 ≠ [] := by decide

theorem fold_subWord_ne_nil :
    ∀ (l : List (List Char × List Char)) (c : List Char),
      (∀ p ∈ l, p.2 ≠ []) → c ≠ [] →
      l.foldl (fun acc p => subWord p.1 p.2 acc) c ≠ [] := by
  intro l
  induction l with
  | nil => intro c _ hc; exact hc
  | cons p l ih =>
    intro c h hc
    rw [List.foldl_cons]
    exact ih _ (fun q hq => h q (List.mem_cons_of_mem p hq))
      (subWord_ne_nil p.1 p.2 (h p (List.mem_cons_self _ _)) c hc)

theorem normalize_code_types_ne_nil (code : List Char) (hc : code ≠ []) :
    normalize_code_types code ≠ [] := by
  rw [normalize_code_types, if_neg hc]
  exact fold_subWord_ne_nil GHIDRA_TYPE_MAP code tbl_vals_ne_nil hc

/-- C4 counterexample: the ELF implementation does NOT return None for the
variable declaration `"int x;"` — it returns the string itself, refuting
the claim that both implementations return None there. -/
theorem claim_C4_signature_cex :
    extract_function_signature_elf ("int x;".toList) = some ("int x;".toList) ∧
    extract_function_signature_elf ("int x;".toList) ≠ none := by decide

/-- C4 (amended).  The ghidra_common implementation returns None for empty
input and for `"int x;"`, returns the non-empty signature
`"int f(int a)"` for a real function, and never returns an empty string.
The ELF implementation lacks the semicolon/empty-candidate check: it
returns None only for falsy input, returns `"int f(int a)"` for the same
function, and can even return `some ""` (for whitespace-only input). -/
theorem claim_C4_signature_amended :
    (∀ (code s : List Char), extract_function_signature code = some s → s ≠ []) ∧
    extract_function_signature [] = none ∧
    extract_function_signature ("int x;".toList) = none ∧
    extract_function_signature ("int f(int a)\n\x7b\n  return a;\n\x7d".toList) =
      some ("int f(int a)".toList) ∧
    extract_function_signature_elf [] = none ∧
    extract_function_signature_elf ("int f(int a)\n\x7b\n  return a;\n\x7d".toList) =
      some ("int f(int a)".toList) ∧
    extract_function_signature_elf ("   ".toList) = some [] := by
  refine ⟨?_, by decide, by decide, by decide, by decide, by decide, by decide⟩
  intro code s h
  rw [extract_function_signature] at h
  by_cases h0 : code = []
  · rw [if_pos h0] at h
    exact absurd h (by simp)
  · rw [if_neg h0] at h
    by_cases h1 : sigLines (pySplitChar '\n' (pyStrip code)) = []
    · rw [if_pos h1] at h
      exact absurd h (by simp)
    · rw [if_neg h1] at h
      by_cases h2 : ((collapseSpaces (pyStrip (List.intercalate [' ']
            (sigLines (pySplitChar '\n' (pyStrip code)))))).isEmpty
          || List.isSuffixOf [';'] (collapseSpaces (pyStrip (List.intercalate [' ']
            (sigLines (pySplitChar '\n' (pyStrip code))))))) = true
      · rw [if_pos h2] at h
        exact absurd h (by simp)
      · rw [if_neg h2] at h
        have hsig : collapseSpaces (pyStrip (List.intercalate [' ']
            (sigLines (pySplitChar '\n' (pyStrip code))))) ≠ [] := by
          intro hcon
          apply h2
          rw [hcon]
          rfl
        have hval := Option.some.inj h
        rw [← hval]
        exact normalize_code_types_ne_nil _ hsig

/-- Witness for C4 (amended): the non-emptiness guarantee applied at the
concrete decompiled text of a real function. -/
theorem claim_C4_signature_amended_witness :
    "int f(int a)".toList ≠ [] :=
  claim_C4_signature_amended.1 ("int f(int a)\n\x7b\n  return a;\n\x7d".toList)
    ("int f(int a)".toList) claim_C4_signature_amended.2.2.2.1

-- ============================================================
-- Claim C10: sanitize_filename (src/ghidra_common.py lines 145-163)
-- ============================================================

/-- The character class of `re.sub(r'[<>:"/\\|?*]', "_", name)`. -/
def illegalFileChar (c : Char) : Bool :=
  c = '<' || c = '>' || c = ':' || c = '\"' || c = '/' || c = '\\' ||
  c = '|' || c = '?' || c = '*'

/-- Model of `re.sub(p+, r, s)` for a character class `p`: every maximal run of
`p`-characters becomes the single character `r`. -/
def collapseRunsAux (p : Char → Bool) (r : Char) : Bool → List Char → List Char
  | _, [] => []
  | inRun, c :: rest =>
      if p c then
        (if inRun then collapseRunsAux p r true rest
         else r :: collapseRunsAux p r true rest)
      else c :: collapseRunsAux p r false rest

def collapseRuns (p : Char → Bool) (r : Char) (s : List Char) : List Char :=
  collapseRunsAux p r false s

/-- Python `s.strip("_")`. -/
def stripChar (x : Char) (s : List Char) : List Char :=
  ((s.dropWhile (fun c => c = x)).reverse.dropWhile (fun c => c = x)).reverse

/-- Pass `re.sub(r'[<>:"/\\|?*]', "_", name)` — single characters replaced. -/
def sanitizePass1 (name : List Char) : List Char :=
  name.map (fun c => if illegalFileChar c then '_' else c)

/-- Pass `re.sub(r"\s+", "_", name)`. -/
def sanitizePass2 (name : List Char) : List Char := collapseRuns pyIsSpace '_' name

/-- Pass `re.sub(r"[^\w\-]", "_", name)` — single characters replaced. -/
def sanitizePass3 (name : List Char) : List Char :=
  name.map (fun c => if !(isWordChar c || c = '-') then '_' else c)

/-- Pass `re.sub(r"_+", "_", name)`. -/
def sanitizePass4 (name : List Char) : List Char :=
  collapseRuns (fun c => c = '_') '_' name

def sanitizeCore (name : List Char) : List Char :=
  stripChar '_' (sanitizePass4 (sanitizePass3 (sanitizePass2 (sanitizePass1 name))))

/-- Function `sanitize_filename`: the four substitution passes, `strip("_")`, then
truncation to 100 characters. -/
def sanitize_filename (name : List Char) : List Char :=
  if 100 < (sanitizeCore name).length then (sanitizeCore name).take 100
  else sanitizeCore name

theorem collapseRunsAux_mem (p : Char → Bool) (r : Char) :
    ∀ (s : List Char) (b : Bool) (c : Char),
      c ∈ collapseRunsAux p r b s → c = r ∨ c ∈ s := by
  intro s
  induction s with
  | nil => intro b c h; simp [collapseRunsAux] at h
  | cons a rest ih =>
    intro b c h
    rw [collapseRunsAux] at h
    by_cases hpa : p a
    · rw [if_pos hpa] at h
      by_cases hb : b
      · rw [if_pos hb] at h
        rcases ih true c h with h1 | h1
        · left; exact h1
        · right; exact List.mem_cons_of_mem a h1
      · rw [if_neg hb] at h
        rcases List.mem_cons.mp h with h1 | h1
        · left; exact h1
        · rcases ih true c h1 with h2 | h2
          · left; exact h2
          · right; exact List.mem_cons_of_mem a h2
    · rw [if_neg hpa] at h
      rcases List.mem_cons.mp h with h1 | h1
      · right; rw [h1]; exact List.mem_cons_self a rest
      · rcases ih false c h1 with h2 | h2
        · left; exact h2
        · right; exact List.mem_cons_of_mem a h2

theorem stripChar_mem_subset {a x : Char} {s : List Char} (h : a ∈ stripChar x s) :
    a ∈ s := by
  unfold stripChar at h
  rw [List.mem_reverse] at h
  have h2 := (List.dropWhile_suffix (l := (s.dropWhile (fun c => c = x)).reverse)
    (fun c => c = x)).subset h
  rw [List.mem_reverse] at h2
  exact (List.dropWhile_suffix (fun c => c = x)).subset h2

theorem sanitizeCore_chars (name : List Char) :
    ∀ c ∈ sanitizeCore name, isWordChar c = true ∨ c = '-' := by
  intro c hc
  have h4 : c ∈ sanitizePass4 (sanitizePass3 (sanitizePass2 (sanitizePass1 name))) :=
    stripChar_mem_subset hc
  rcases collapseRunsAux_mem (fun c => c = '_') '_' _ false c h4 with h1 | h1
  · left; rw [h1]; rfl
  · rw [sanitizePass3, List.mem_map] at h1
    rcases h1 with ⟨b, _, hb⟩
    by_cases hok : (isWordChar b || b = '-') = true
    · have hcond : (!(isWordChar b || b = '-')) = false := by rw [hok]; rfl
      rw [← hb, hcond, if_neg Bool.false_ne_true]
      cases h2 : isWordChar b
      · right
        rw [h2] at hok
        simp only [Bool.false_or] at hok
        exact of_decide_eq_true hok
      · left; rfl
    · have hfalse : (isWordChar b || b = '-') = false := Bool.of_not_eq_true hok
      have hcond : (!(isWordChar b || b = '-')) = true := by rw [hfalse]; rfl
      rw [← hb, hcond, if_pos rfl]
      left
      rfl

/-- C10. `sanitize_filename` returns at most 100 characters, all of them
ASCII word characters or hyphens; the result can be empty (e.g. for
`"++"`, which degenerates to underscores that are then stripped). -/
theorem claim_C10_sanitize_filename :
    (∀ name : List Char, (sanitize_filename name).length ≤ 100 ∧
      ∀ c ∈ sanitize_filename name, isWordChar c = true ∨ c = '-') ∧
    sanitize_filename ("++".toList) = [] := by
  constructor
  · intro name
    constructor
    · rw [sanitize_filename]
      by_cases h : 100 < (sanitizeCore name).length
      · rw [if_pos h]
        exact List.length_take_le 100 _
      · rw [if_neg h]
        omega
    · intro c hc
      apply sanitizeCore_chars name c
      rw [sanitize_filename] at hc
      by_cases h : 100 < (sanitizeCore name).length
      · rw [if_pos h] at hc
        exact List.take_subset 100 _ hc
      · rw [if_neg h] at hc
        exact hc
  · decide

-- ============================================================
-- Claims C2/C7: module grouping strategies
-- (src/ghidra_decompile_elf.py lines 353-473)
-- ============================================================

/-- Python `s.split(sep)` for a two-character separator (used for
`func_name.split("__")`), scanning left to right, non-overlapping. -/
def splitOn2Aux (s1 s2 : Char) (acc : List Char) : List Char → List (List Char)
  | [] => [acc.reverse]
  | [c] => [(c :: acc).reverse]
  | c1 :: c2 :: rest =>
      if c1 = s1 ∧ c2 = s2 then acc.reverse :: splitOn2Aux s1 s2 [] rest
      else splitOn2Aux s1 s2 (c1 :: acc) (c2 :: rest)

def pySplit2 (s1 s2 : Char) (s : List Char) : List (List Char) :=
  splitOn2Aux s1 s2 [] s

/-- Model of `re.match(r"^[A-Z][a-zA-Z0-9]+$", s)` as a Bool (full-string match). -/
def reFullClassName (s : List Char) : Bool :=
  match s with
  | [] => false
  | c :: rest => c.isUpper && !rest.isEmpty && rest.all Char.isAlphanum

/-- Model of `re.match(r"^([A-Z][a-z]+[A-Z][a-z]*)", s)`: the character classes are
disjoint, so greedy matching without backtracking is exact. -/
def camel2Match (s : List Char) : Option (List Char) :=
  match s with
  | [] => none
  | c :: rest =>
      if c.isUpper then
        if (rest.takeWhile Char.isLower).isEmpty then none
        else
          match rest.dropWhile Char.isLower with
          | [] => none
          | c2 :: rest2 =>
              if c2.isUpper then
                some (c :: rest.takeWhile Char.isLower ++
                  c2 :: rest2.takeWhile Char.isLower)
              else none
      else none

/-- Model of `re.match(r"^([A-Z][a-z]+)", s)`. -/
def camel1Match (s : List Char) : Option (List Char) :=
  match s with
  | [] => none
  | c :: rest =>
      if c.isUpper then
        if (rest.takeWhile Char.isLower).isEmpty then none
        else some (c :: rest.takeWhile Char.isLower)
      else none

def isLowerDigit (c : Char) : Bool := c.isLower || c.isDigit

/-- Model of `re.match(r"^([a-z][a-z0-9]*_[a-z0-9]+)", s)`. -/
def snakeMatch (s : List Char) : Option (List Char) :=
  match s with
  | [] => none
  | c :: rest =>
      if c.isLower then
        match rest.dropWhile isLowerDigit with
        | '_' :: rest2 =>
            if (rest2.takeWhile isLowerDigit).isEmpty then none
            else some (c :: rest.takeWhile isLowerDigit ++
              '_' :: rest2.takeWhile isLowerDigit)
        | _ => none
      else none

/-- Model of `re.match(r"^([a-z]+)", s)`. -/
def lowerMatch (s : List Char) : Option (List Char) :=
  if (s.takeWhile Char.isLower).isEmpty then none
  else some (s.takeWhile Char.isLower)

/-- Model of `re.match(r"^([A-Z]+)_", s)`: after the greedy upper-case run the next
character must be `_`; shorter runs would face an upper-case character, so
no backtracking is possible and the greedy scan is exact. -/
def capsMatch (s : List Char) : Option (List Char) :=
  if (s.takeWhile Char.isUpper).isEmpty then none
  else
    match s.dropWhile Char.isUpper with
    | '_' :: _ => some (s.takeWhile Char.isUpper)
    | _ => none

/-- The single-underscore block of extract_prefix (lines 378-391): for
names containing `_` and not starting with it, try the first segment
(CamelCase or >= 4 chars), then the compound of the first two segments. -/
def underscoreBranch (func_name : List Char) (min_prefix_len max_prefix_len : Nat) :
    Option (List Char) :=
  if pyContains "_".toList func_name && !("_".toList.isPrefixOf func_name) then
    if 2 ≤ (pySplitChar '_' func_name).length then
      if min_prefix_len ≤ ((pySplitChar '_' func_name).headD []).length &&
          (reFullClassName ((pySplitChar '_' func_name).headD []) ||
           4 ≤ ((pySplitChar '_' func_name).headD []).length) then
        some ((pySplitChar '_' func_name).headD [])
      else if ((pySplitChar '_' func_name).headD [] ++
          (pySplitChar '_' func_name).getD 1 []).length ≤ max_prefix_len then
        some ((pySplitChar '_' func_name).headD [] ++
          (pySplitChar '_' func_name).getD 1 [])
      else none
    else none
  else none

/-- Continuation after the lowercase word attempt. -/
def extract_prefix_rest3 (func_name : List Char) (min_prefix_len : Nat) : List Char :=
  match capsMatch func_name with
  | some p => if min_prefix_len ≤ p.length then p else "_misc".toList
  | none => "_misc".toList
/-- Continuation after the single CamelCase word attempt. -/
def extract_prefix_rest2 (func_name : List Char) (min_prefix_len : Nat) : List Char :=
  match snakeMatch func_name with
  | some p => p
  | none =>
    match lowerMatch func_name with
    | some p => if min_prefix_len ≤ p.length then p else extract_prefix_rest3 func_name min_prefix_len
    | none => extract_prefix_rest3 func_name min_prefix_len

/-- Continuation of extract_prefix after the two-hump CamelCase attempt. -/
def extract_prefix_rest1 (func_name : List Char) (min_prefix_len : Nat) : List Char :=
  match camel1Match func_name with
  | some p => if min_prefix_len ≤ p.length then p else extract_prefix_rest2 func_name min_prefix_len
  | none => extract_prefix_rest2 func_name min_prefix_len

/-- Function extract_prefix (lines 353-422): auto-generated names bucket to
`_generated`; then the double-underscore, single-underscore, CamelCase,
snake-case, lowercase and all-caps heuristics in source order; `_misc`
when everything fails. -/
def extract_prefix (func_name : List Char) (min_prefix_len max_prefix_len : Nat) :
    List Char :=
  if "FUN_".toList.isPrefixOf func_name || "DAT_".toList.isPrefixOf func_name then
    "_generated".toList
  else if pyContains "__".toList func_name &&
      min_prefix_len ≤ ((pySplit2 '_' '_' func_name).headD []).length then
    (pySplit2 '_' '_' func_name).headD []
  else
    match underscoreBranch func_name min_prefix_len max_prefix_len with
    | some r => r
    | none =>
      match camel2Match func_name with
      | some p =>
          if min_prefix_len ≤ p.length && p.length ≤ max_prefix_len then p
          else extract_prefix_rest1 func_name min_prefix_len
      | none => extract_prefix_rest1 func_name min_prefix_len


def extract_prefixD (func_name : List Char) : List Char :=
  extract_prefix func_name 2 30

/-- Selection `name_to_check = display_name if display_name else func_name`. -/
def name_to_check (func_name display_name : List Char) : List Char :=
  if display_name = [] then func_name else display_name

/-- Expression `first_char = name_to_check[0].upper() if name_to_check else "_"`. -/
def alphaFirstChar (n : List Char) : Char :=
  match n with
  | [] => '_'
  | c :: _ => c.toUpper

/-- Function `get_module_name_by_alpha` (lines 425-436). -/
def get_module_name_by_alpha (func_name display_name : List Char) : List Char :=
  if "FUN_".toList.isPrefixOf (name_to_check func_name display_name) ||
      "DAT_".toList.isPrefixOf (name_to_check func_name display_name) then
    "_generated".toList
  else if (alphaFirstChar (name_to_check func_name display_name)).isAlpha then
    [alphaFirstChar (name_to_check func_name display_name)]
  else "_symbols".toList

/-- Model of `re.findall(r"[A-Z][a-z]*|[a-z]+|[0-9]+", s)`: scan left to right; at
an upper-case letter take it plus a lower-case run, at a lower-case letter
a lower-case run, at a digit a digit run; other characters are skipped.
The alternation's classes are disjoint, so this equals the regex scan.
The skip counter consumes the remainder of an emitted token. -/
def camelWordsAux : Nat → List Char → List (List Char)
  | _+1, [] => []
  | n+1, _ :: rest => camelWordsAux n rest
  | 0, [] => []
  | 0, c :: rest =>
      if c.isUpper || c.isLower then
        (c :: rest.takeWhile Char.isLower) ::
          camelWordsAux (rest.takeWhile Char.isLower).length rest
      else if c.isDigit then
        (c :: rest.takeWhile Char.isDigit) ::
          camelWordsAux (rest.takeWhile Char.isDigit).length rest
      else camelWordsAux 0 rest

def camelWords (s : List Char) : List (List Char) := camelWordsAux 0 s

/-- The word list used by the camelcase strategy: split on `_` when
present, else CamelCase/lowercase/digit runs. -/
def camelWordsSel (n : List Char) : List (List Char) :=
  if pyContains "_".toList n then pySplitChar '_' n else camelWords n

/-- Function `get_module_name_by_camelcase` (lines 439-457). -/
def get_module_name_by_camelcase (func_name display_name : List Char) : List Char :=
  if "FUN_".toList.isPrefixOf (name_to_check func_name display_name) ||
      "DAT_".toList.isPrefixOf (name_to_check func_name display_name) then
    "_generated".toList
  else if 2 ≤ (camelWordsSel (name_to_check func_name display_name)).length then
    (camelWordsSel (name_to_check func_name display_name)).headD [] ++
      (camelWordsSel (name_to_check func_name display_name)).getD 1 []
  else if (camelWordsSel (name_to_check func_name display_name)).length = 1 then
    (camelWordsSel (name_to_check func_name display_name)).headD []
  else "_misc".toList

/-- Function `get_module_name` (lines 460-473): strategy dispatch; unknown
strategies fall back to the prefix strategy. -/
def get_module_name (func_name display_name strategy : List Char) : List Char :=
  if strategy = "prefix".toList then
    extract_prefixD (name_to_check func_name display_name)
  else if strategy = "alpha".toList then
    get_module_name_by_alpha func_name display_name
  else if strategy = "camelcase".toList then
    get_module_name_by_camelcase func_name display_name
  else if strategy = "single".toList then
    "all_functions".toList
  else extract_prefixD (name_to_check func_name display_name)

example : extract_prefixD ("CoreView__ReInit".toList) = "CoreView".toList := by decide
example : extract_prefixD ("vg_lite_init".toList) = "vglite".toList := by decide
example : extract_prefixD ("HAL_Init".toList) = "HAL".toList := by decide
example : extract_prefixD ("xxBmpInit".toList) = "xx".toList := by decide
example : extract_prefixD ("FUN_0040abcd".toList) = "_generated".toList := by decide
example : extract_prefixD ("ApplicationApplication_goHome".toList) =
    "ApplicationApplication".toList := by decide
example : extract_prefixD ("a_".toList) = "a".toList := by decide
example : get_module_name_by_camelcase ("GfxCreateSurface".toList) [] =
    "GfxCreate".toList := by decide
example : get_module_name ("_".toList) ("_".toList) ("camelcase".toList) = [] := by decide

-- helper lemmas for the split/scan functions

theorem splitOnCharAux_ne_nil (sep : Char) :
    ∀ (s acc : List Char), splitOnCharAux sep acc s ≠ [] := by
  intro s
  induction s with
  | nil => intro acc; exact List.cons_ne_nil _ _
  | cons c rest ih =>
    intro acc
    rw [splitOnCharAux]
    by_cases h : c = sep
    · rw [if_pos h]; exact List.cons_ne_nil _ _
    · rw [if_neg h]; exact ih (c :: acc)

theorem splitOnCharAux_len2 (sep : Char) :
    ∀ (s acc : List Char), sep ∈ s → 2 ≤ (splitOnCharAux sep acc s).length := by
  intro s
  induction s with
  | nil => intro acc h; simp at h
  | cons c rest ih =>
    intro acc h
    rw [splitOnCharAux]
    by_cases hc : c = sep
    · rw [if_pos hc, List.length_cons]
      have h1 : splitOnCharAux sep [] rest ≠ [] := splitOnCharAux_ne_nil sep rest []
      have h2 : 1 ≤ (splitOnCharAux sep [] rest).length := by
        rcases List.exists_cons_of_ne_nil h1 with ⟨a, t, hat⟩
        rw [hat, List.length_cons]
        omega
      omega
    · rw [if_neg hc]
      apply ih
      rcases List.mem_cons.mp h with h1 | h1
      · exact absurd h1.symm hc
      · exact h1

theorem splitOnCharAux_headD (sep : Char) :
    ∀ (s acc : List Char),
      (splitOnCharAux sep acc s).headD [] =
        acc.reverse ++ s.takeWhile (fun c => c != sep) := by
  intro s
  induction s with
  | nil => intro acc; simp [splitOnCharAux]
  | cons c rest ih =>
    intro acc
    rw [splitOnCharAux, List.takeWhile_cons]
    by_cases h : c = sep
    · rw [if_pos h]
      have hb : (c != sep) = false := by
        rw [bne_eq_false_iff_eq]
        exact h
      rw [hb]
      simp
    · rw [if_neg h]
      have hb : (c != sep) = true := by
        rw [bne_iff_ne]
        exact h
      rw [hb, ih (c :: acc)]
      simp

theorem pyContains_single_mem {x : Char} :
    ∀ (s : List Char), pyContains [x] s = true → x ∈ s := by
  intro s
  induction s with
  | nil => intro h; simp [pyContains, List.isPrefixOf] at h
  | cons c t ih =>
    intro h
    rw [pyContains, Bool.or_eq_true] at h
    rcases h with h1 | h1
    · have : x = c := by
        simp [List.isPrefixOf] at h1
        exact h1
      rw [this]
      exact List.mem_cons_self c t
    · exact List.mem_cons_of_mem c (ih h1)

theorem headD_mem {l : List (List Char)} (h : l ≠ []) : l.headD [] ∈ l := by
  cases l with
  | nil => exact absurd rfl h
  | cons a t => exact List.mem_cons_self a t

theorem camelWordsAux_ne_nil :
    ∀ (s : List Char) (n : Nat) (w : List Char), w ∈ camelWordsAux n s → w ≠ [] := by
  intro s
  induction s with
  | nil =>
    intro n w h
    cases n with
    | zero => simp [camelWordsAux] at h
    | succ k => simp [camelWordsAux] at h
  | cons c rest ih =>
    intro n w h
    cases n with
    | succ k =>
      rw [camelWordsAux] at h
      exact ih k w h
    | zero =>
      rw [camelWordsAux] at h
      by_cases h1 : (c.isUpper || c.isLower) = true
      · rw [if_pos h1] at h
        rcases List.mem_cons.mp h with h2 | h2
        · rw [h2]; exact List.cons_ne_nil _ _
        · exact ih _ w h2
      · rw [if_neg h1] at h
        by_cases h2 : c.isDigit = true
        · rw [if_pos h2] at h
          rcases List.mem_cons.mp h with h3 | h3
          · rw [h3]; exact List.cons_ne_nil _ _
          · exact ih _ w h3
        · rw [if_neg h2] at h
          exact ih 0 w h

-- non-emptiness of each regex capture

theorem camel2Match_some_ne {s p : List Char} (h : camel2Match s = some p) : p ≠ [] := by
  unfold camel2Match at h
  split at h
  · exact absurd h (by simp)
  · split at h
    · split at h
      · exact absurd h (by simp)
      · split at h
        · exact absurd h (by simp)
        · split at h
          · rw [← Option.some.inj h]
            exact List.cons_ne_nil _ _
          · exact absurd h (by simp)
    · exact absurd h (by simp)

theorem camel1Match_some_ne {s p : List Char} (h : camel1Match s = some p) : p ≠ [] := by
  unfold camel1Match at h
  split at h
  · exact absurd h (by simp)
  · split at h
    · split at h
      · exact absurd h (by simp)
      · rw [← Option.some.inj h]
        exact List.cons_ne_nil _ _
    · exact absurd h (by simp)

theorem snakeMatch_some_ne {s p : List Char} (h : snakeMatch s = some p) : p ≠ [] := by
  unfold snakeMatch at h
  split at h
  · exact absurd h (by simp)
  · split at h
    · split at h
      · split at h
        · exact absurd h (by simp)
        · rw [← Option.some.inj h]
          exact List.cons_ne_nil _ _
      · exact absurd h (by simp)
    · exact absurd h (by simp)

theorem lowerMatch_some_ne {s p : List Char} (h : lowerMatch s = some p) : p ≠ [] := by
  unfold lowerMatch at h
  split at h
  · exact absurd h (by simp)
  · rename_i hne
    rw [← Option.some.inj h]
    intro hcon
    rw [hcon] at hne
    exact hne rfl

theorem capsMatch_some_ne {s p : List Char} (h : capsMatch s = some p) : p ≠ [] := by
  unfold capsMatch at h
  split at h
  · exact absurd h (by simp)
  · rename_i hne
    split at h
    · rw [← Option.some.inj h]
      intro hcon
      rw [hcon] at hne
      exact hne rfl
    · exact absurd h (by simp)

theorem isPrefixOf_cons_cons {a b : Char} {as bs : List Char} :
    (a :: as).isPrefixOf (b :: bs) = (a == b && as.isPrefixOf bs) := rfl

theorem underscoreBranch_some_ne {n : List Char} {mn mx : Nat} (hmn : 1 ≤ mn)
    {r : List Char} (h : underscoreBranch n mn mx = some r) : r ≠ [] := by
  unfold underscoreBranch at h
  split at h
  · rename_i hguard
    rw [Bool.and_eq_true] at hguard
    split at h
    · split at h
      · rename_i hfirst
        rw [Bool.and_eq_true, decide_eq_true_eq] at hfirst
        rw [← Option.some.inj h]
        intro hcon
        rw [hcon] at hfirst
        simp at hfirst
        omega
      · split at h
        · rw [← Option.some.inj h]
          intro hcon
          rcases List.append_eq_nil.mp hcon with ⟨h0, _⟩
          -- the first `_`-segment is nonempty since n does not start with `_`
          have hcont : pyContains "_".toList n = true := hguard.1
          have hnpre : ("_".toList.isPrefixOf n) = false := by
            have := hguard.2
            rw [Bool.not_eq_true'] at this
            exact this
          have hmem : '_' ∈ n := pyContains_single_mem n hcont
          obtain ⟨c, t, hn⟩ : ∃ c t, n = c :: t := by
            cases n with
            | nil => simp at hmem
            | cons a b => exact ⟨a, b, rfl⟩
          have hcsep : c ≠ '_' := by
            intro he
            rw [hn, show "_".toList = ['_'] from rfl, isPrefixOf_cons_cons] at hnpre
            subst he
            simp at hnpre
          rw [hn] at h0
          rw [show pySplitChar '_' (c :: t) = splitOnCharAux '_' [] (c :: t) from rfl,
            splitOnCharAux_headD] at h0
          rw [List.takeWhile_cons] at h0
          have hb : (c != '_') = true := by
            rw [bne_iff_ne]
            exact hcsep
          rw [hb] at h0
          simp at h0
        · exact absurd h (by simp)
    · exact absurd h (by simp)
  · exact absurd h (by simp)

theorem extract_prefix_rest3_ne_nil (n : List Char) (mn : Nat) :
    extract_prefix_rest3 n mn ≠ [] := by
  unfold extract_prefix_rest3
  cases h : capsMatch n with
  | none =>
    show "_misc".toList ≠ []
    decide
  | some p =>
    show (if mn ≤ p.length then p else "_misc".toList) ≠ []
    by_cases h2 : mn ≤ p.length
    · rw [if_pos h2]
      exact capsMatch_some_ne h
    · rw [if_neg h2]
      decide

theorem extract_prefix_rest2_ne_nil (n : List Char) (mn : Nat) :
    extract_prefix_rest2 n mn ≠ [] := by
  unfold extract_prefix_rest2
  cases h : snakeMatch n with
  | some p => exact snakeMatch_some_ne h
  | none =>
    cases h2 : lowerMatch n with
    | none => exact extract_prefix_rest3_ne_nil n mn
    | some p =>
      show (if mn ≤ p.length then p else extract_prefix_rest3 n mn) ≠ []
      by_cases h3 : mn ≤ p.length
      · rw [if_pos h3]
        exact lowerMatch_some_ne h2
      · rw [if_neg h3]
        exact extract_prefix_rest3_ne_nil n mn

theorem extract_prefix_rest1_ne_nil (n : List Char) (mn : Nat) :
    extract_prefix_rest1 n mn ≠ [] := by
  unfold extract_prefix_rest1
  cases h : camel1Match n with
  | none => exact extract_prefix_rest2_ne_nil n mn
  | some p =>
    show (if mn ≤ p.length then p else extract_prefix_rest2 n mn) ≠ []
    by_cases h2 : mn ≤ p.length
    · rw [if_pos h2]
      exact camel1Match_some_ne h
    · rw [if_neg h2]
      exact extract_prefix_rest2_ne_nil n mn

theorem extract_prefix_ne_nil (n : List Char) (mn mx : Nat) (hmn : 1 ≤ mn) :
    extract_prefix n mn mx ≠ [] := by
  unfold extract_prefix
  by_cases h1 : ("FUN_".toList.isPrefixOf n || "DAT_".toList.isPrefixOf n) = true
  · rw [if_pos h1]; decide
  · rw [if_neg h1]
    by_cases h2 : (pyContains "__".toList n &&
        decide (mn ≤ ((pySplit2 '_' '_' n).headD []).length)) = true
    · rw [if_pos h2]
      rw [Bool.and_eq_true, decide_eq_true_eq] at h2
      intro hcon
      rw [hcon] at h2
      simp at h2
      omega
    · rw [if_neg h2]
      cases h3 : underscoreBranch n mn mx with
      | some r => exact underscoreBranch_some_ne hmn h3
      | none =>
        cases h4 : camel2Match n with
        | none => exact extract_prefix_rest1_ne_nil n mn
        | some p =>
          show (if (decide (mn ≤ p.length) && decide (p.length ≤ mx)) = true then p
            else extract_prefix_rest1 n mn) ≠ []
          by_cases h5 : (decide (mn ≤ p.length) && decide (p.length ≤ mx)) = true
          · rw [if_pos h5]
            exact camel2Match_some_ne h4
          · rw [if_neg h5]
            exact extract_prefix_rest1_ne_nil n mn

theorem alpha_key_ne_nil (f d : List Char) : get_module_name_by_alpha f d ≠ [] := by
  unfold get_module_name_by_alpha
  by_cases h1 : ("FUN_".toList.isPrefixOf (name_to_check f d) ||
      "DAT_".toList.isPrefixOf (name_to_check f d)) = true
  · rw [if_pos h1]; decide
  · rw [if_neg h1]
    by_cases h2 : (alphaFirstChar (name_to_check f d)).isAlpha = true
    · rw [if_pos h2]; exact List.cons_ne_nil _ _
    · rw [if_neg h2]; decide

theorem getD_zero_headD (l : List (List Char)) : l.getD 0 [] = l.headD [] := by
  cases l with
  | nil => rfl
  | cons a t => rfl

theorem camelcase_key_ne_nil (f d : List Char)
    (h1 : name_to_check f d ≠ "_".toList)
    (h2 : ("__".toList.isPrefixOf (name_to_check f d)) = false) :
    get_module_name_by_camelcase f d ≠ [] := by
  unfold get_module_name_by_camelcase
  by_cases hgen : ("FUN_".toList.isPrefixOf (name_to_check f d) ||
      "DAT_".toList.isPrefixOf (name_to_check f d)) = true
  · rw [if_pos hgen]; decide
  · rw [if_neg hgen]
    by_cases hund : pyContains "_".toList (name_to_check f d) = true
    · -- split on underscores
      have hmem : '_' ∈ name_to_check f d := pyContains_single_mem _ hund
      have hlen2 : 2 ≤ (camelWordsSel (name_to_check f d)).length := by
        rw [camelWordsSel, if_pos hund]
        exact splitOnCharAux_len2 '_' _ [] hmem
      rw [if_pos hlen2]
      obtain ⟨c, t, hn⟩ : ∃ c t, name_to_check f d = c :: t := by
        cases hx : name_to_check f d with
        | nil => rw [hx] at hmem; simp at hmem
        | cons a b => exact ⟨a, b, rfl⟩
      by_cases hc : c = '_'
      · -- name starts with '_': second segment is nonempty
        subst hc
        have ht_ne : t ≠ [] := by
          intro hcon
          rw [hn, hcon] at h1
          exact h1 rfl
        obtain ⟨t0, t', ht⟩ : ∃ t0 t', t = t0 :: t' := by
          cases t with
          | nil => exact absurd rfl ht_ne
          | cons a b => exact ⟨a, b, rfl⟩
        have ht0 : t0 ≠ '_' := by
          intro he
          rw [hn, ht, show "__".toList = ['_', '_'] from rfl] at h2
          rw [isPrefixOf_cons_cons] at h2
          subst he
          rw [isPrefixOf_cons_cons] at h2
          simp at h2
        have hsel : camelWordsSel (name_to_check f d) =
            [] :: pySplitChar '_' t := by
          rw [camelWordsSel, if_pos hund, hn,
            show pySplitChar '_' ('_' :: t) = splitOnCharAux '_' [] ('_' :: t) from rfl,
            splitOnCharAux, if_pos rfl]
          rfl
        rw [hsel]
        have hsecond : (pySplitChar '_' t).headD [] ≠ [] := by
          rw [show pySplitChar '_' t = splitOnCharAux '_' [] t from rfl,
            splitOnCharAux_headD, ht, List.takeWhile_cons]
          have hb : (t0 != '_') = true := by
            rw [bne_iff_ne]
            exact ht0
          rw [hb]
          simp
        intro hcon
        rw [show ([] :: pySplitChar '_' t).headD [] = [] from rfl] at hcon
        rw [show ([] :: pySplitChar '_' t).getD 1 [] = (pySplitChar '_' t).getD 0 []
          from rfl, getD_zero_headD] at hcon
        simp only [List.nil_append] at hcon
        exact hsecond hcon
      · -- name starts with a non-underscore: first segment is nonempty
        have hfirst : (camelWordsSel (name_to_check f d)).headD [] ≠ [] := by
          rw [camelWordsSel, if_pos hund, hn,
            show pySplitChar '_' (c :: t) = splitOnCharAux '_' [] (c :: t) from rfl,
            splitOnCharAux_headD, List.takeWhile_cons]
          have hb : (c != '_') = true := by
            rw [bne_iff_ne]
            exact hc
          rw [hb]
          simp
        intro hcon
        rcases List.append_eq_nil.mp hcon with ⟨hx, _⟩
        exact hfirst hx
    · -- CamelCase word extraction
      have hsel : camelWordsSel (name_to_check f d) = camelWords (name_to_check f d) := by
        rw [camelWordsSel, if_neg hund]
      by_cases hlen2 : 2 ≤ (camelWordsSel (name_to_check f d)).length
      · rw [if_pos hlen2]
        have hne : camelWordsSel (name_to_check f d) ≠ [] := by
          intro hcon
          rw [hcon] at hlen2
          simp at hlen2
        have hhd : (camelWordsSel (name_to_check f d)).headD [] ≠ [] := by
          apply camelWordsAux_ne_nil (name_to_check f d) 0
          rw [← camelWords, ← hsel]
          exact headD_mem hne
        intro hcon
        rcases List.append_eq_nil.mp hcon with ⟨hx, _⟩
        exact hhd hx
      · rw [if_neg hlen2]
        by_cases hlen1 : (camelWordsSel (name_to_check f d)).length = 1
        · rw [if_pos hlen1]
          have hne : camelWordsSel (name_to_check f d) ≠ [] := by
            intro hcon
            rw [hcon] at hlen1
            simp at hlen1
          apply camelWordsAux_ne_nil (name_to_check f d) 0
          rw [← camelWords, ← hsel]
          exact headD_mem hne
        · rw [if_neg hlen1]
          decide

-- ============================================================
-- Claim C2: module-key totality and non-emptiness
-- ============================================================

/-- C2 counterexample: under the camelcase strategy the symbol name `"_"`
splits into two empty segments whose concatenation is the EMPTY key,
contradicting the claim that every strategy returns a non-empty key. -/
theorem claim_C2_module_key_cex :
    get_module_name ("_".toList) ("_".toList) ("camelcase".toList) = [] := by decide

/-- C2 (amended). The prefix, alpha and single strategies always return a
non-empty key (with fallbacks `_generated`, `_misc`, `_symbols`,
`all_functions`), and classification is total; the camelcase strategy also
returns a non-empty key UNLESS the checked name is exactly `"_"` or starts
with `"__"`, in which case its first two underscore-split segments are
empty and the returned key is the empty string. -/
theorem claim_C2_module_key_amended :
    ∀ (func_name display_name : List Char),
      get_module_name func_name display_name ("prefix".toList) ≠ [] ∧
      get_module_name func_name display_name ("alpha".toList) ≠ [] ∧
      get_module_name func_name display_name ("single".toList) ≠ [] ∧
      ((name_to_check func_name display_name ≠ "_".toList ∧
        ("__".toList.isPrefixOf (name_to_check func_name display_name)) = false) →
        get_module_name func_name display_name ("camelcase".toList) ≠ []) := by
  intro f d
  refine ⟨?_, ?_, ?_, ?_⟩
  · rw [get_module_name, if_pos rfl]
    exact extract_prefix_ne_nil (name_to_check f d) 2 30 (by decide)
  · rw [get_module_name, if_neg (by decide), if_pos rfl]
    exact alpha_key_ne_nil f d
  · rw [get_module_name, if_neg (by decide), if_neg (by decide), if_neg (by decide),
      if_pos rfl]
    decide
  · intro hsh
    rw [get_module_name, if_neg (by decide), if_neg (by decide), if_pos rfl]
    exact camelcase_key_ne_nil f d hsh.1 hsh.2

/-- Witness for C2 (amended): the camelcase conjunct applied at the
concrete symbol name `"Foo_bar"`. -/
theorem claim_C2_module_key_amended_witness :
    get_module_name ("Foo_bar".toList) [] ("camelcase".toList) ≠ [] :=
  (claim_C2_module_key_amended ("Foo_bar".toList) []).2.2.2 (by decide)

-- ============================================================
-- Claim C7: extract_prefix length bounds
-- ============================================================

/-- C7 counterexample: `extract_prefix("a_")` takes the compound path
("a" + "") and returns the single-character key `"a"`, which is neither a
fallback bucket nor within the claimed minimum length 2. -/
theorem claim_C7_prefix_bounds_cex :
    ¬(extract_prefixD ("a_".toList) = "_generated".toList ∨
      extract_prefixD ("a_".toList) = "_misc".toList ∨
      (2 ≤ (extract_prefixD ("a_".toList)).length ∧
        (extract_prefixD ("a_".toList)).length ≤ 30)) := by decide

/-- C7 (amended). With the default bounds, every key returned by the
prefix heuristic is non-empty (the fallback buckets included), but the
min/max length bounds are enforced only on the CamelCase, lowercase and
all-caps regex paths: the double-underscore, class-name and compound paths
can return keys of length 1 or longer than 30. -/
theorem claim_C7_prefix_bounds_amended :
    ∀ n : List Char, extract_prefixD n ≠ [] :=
  fun n => extract_prefix_ne_nil n 2 30 (by decide)

-- ============================================================
-- Claim C8: clean_decompiled_code blank-line/brace behaviour
-- (src/ghidra_common.py lines 301-358)
-- ============================================================

/-- The "function signature comment" test (lines 329-334): a
`/* ... */` line whose inner text contains `(` or is a single short word. -/
def isSigComment (stripped : List Char) : Bool :=
  "/*".toList.isPrefixOf stripped && "*/".toList.isSuffixOf stripped &&
    (let inner := pyStrip ((stripped.drop 2).take (stripped.length - 4))
     inner.contains '(' ||
       (!inner.isEmpty && !inner.contains ' ' && decide (inner.length < 100)))

/-- Delta `stripped.count("{") - stripped.count("}")` as an integer. -/
def braceDelta (stripped : List Char) : Int :=
  (stripped.count '\x7b' : Int) - (stripped.count '\x7d' : Int)

/-- The line-filtering loop of `clean_decompiled_code` (lines 324-352):
signature comments are dropped before the brace counting; blank lines are
dropped inside function bodies (depth > 0) and deduplicated outside. -/
def cleanAux : Bool → Int → List (List Char) → List (List Char)
  | _, _, [] => []
  | prevBlank, depth, line :: rest =>
      if isSigComment (pyStrip line) then cleanAux prevBlank depth rest
      else
        if (pyStrip line).isEmpty then
          if 0 < depth + braceDelta (pyStrip line) then
            cleanAux prevBlank (depth + braceDelta (pyStrip line)) rest
          else if prevBlank then
            cleanAux prevBlank (depth + braceDelta (pyStrip line)) rest
          else line :: cleanAux true (depth + braceDelta (pyStrip line)) rest
        else line :: cleanAux false (depth + braceDelta (pyStrip line)) rest

/-- Loop `while cleaned_lines and not cleaned_lines[-1].strip(): pop()`. -/
def dropTrailingBlanks (ls : List (List Char)) : List (List Char) :=
  (ls.reverse.dropWhile (fun l => (pyStrip l).isEmpty)).reverse

def cleaned_lines (code : List Char) : List (List Char) :=
  dropTrailingBlanks (cleanAux false 0 (pySplitChar '\n' code))

/-- Function `clean_decompiled_code`: split into lines, filter, drop trailing
blanks, re-join. -/
def clean_decompiled_code (code : List Char) : List Char :=
  if code = [] then code
  else List.intercalate ['\n'] (cleaned_lines code)

/-- The cleaner's running brace depth stays non-negative (counted as the
cleaner counts it: stripped lines, signature comments skipped). -/
def depthsNonneg : Int → List (List Char) → Bool
  | _, [] => true
  | d, line :: rest =>
      if isSigComment (pyStrip line) then depthsNonneg d rest
      else decide (0 ≤ d + braceDelta (pyStrip line)) &&
        depthsNonneg (d + braceDelta (pyStrip line)) rest

/-- The claimed adjacency property: no blank line directly after a line
consisting solely of `{`, no blank line directly before a line consisting
solely of `}`. -/
def okPair (a b : List Char) : Prop :=
  ¬(pyStrip a = ['\x7b'] ∧ (pyStrip b).isEmpty = true) ∧
  ¬((pyStrip a).isEmpty = true ∧ pyStrip b = ['\x7d'])

instance : DecidableRel okPair := fun a b =>
  inferInstanceAs (Decidable (¬(pyStrip a = ['\x7b'] ∧ (pyStrip b).isEmpty = true) ∧
    ¬((pyStrip a).isEmpty = true ∧ pyStrip b = ['\x7d'])))

theorem braceDelta_blank {l : List Char} (h : (pyStrip l).isEmpty = true) :
    braceDelta (pyStrip l) = 0 := by
  rw [List.isEmpty_iff] at h
  rw [braceDelta, h]
  rfl

theorem braceDelta_close {l : List Char} (h : pyStrip l = ['\x7d']) :
    braceDelta (pyStrip l) = -1 := by
  rw [braceDelta, h]
  rfl

theorem braceDelta_open {l : List Char} (h : pyStrip l = ['\x7b']) :
    braceDelta (pyStrip l) = 1 := by
  rw [braceDelta, h]
  rfl

theorem cleanAux_chain :
    ∀ (lines : List (List Char)) (prevBlank : Bool) (depth : Int) (prev : List Char),
      depthsNonneg depth lines = true → 0 ≤ depth →
      (pyStrip prev = ['\x7b'] → 0 < depth) →
      ((pyStrip prev).isEmpty = true → depth ≤ 0) →
      List.Chain okPair prev (cleanAux prevBlank depth lines) := by
  intro lines
  induction lines with
  | nil =>
    intro prevBlank depth prev _ _ _ _
    exact List.Chain.nil
  | cons line rest ih =>
    intro prevBlank depth prev hnn hd0 hopen hblank
    rw [cleanAux]
    rw [depthsNonneg] at hnn
    by_cases hcom : isSigComment (pyStrip line) = true
    · rw [if_pos hcom]
      rw [if_pos hcom] at hnn
      exact ih prevBlank depth prev hnn hd0 hopen hblank
    · rw [if_neg hcom]
      rw [if_neg hcom, Bool.and_eq_true, decide_eq_true_eq] at hnn
      by_cases hst : (pyStrip line).isEmpty = true
      · -- blank line: the brace delta is zero
        have hdz := braceDelta_blank hst
        rw [if_pos hst]
        by_cases hin : 0 < depth + braceDelta (pyStrip line)
        · rw [if_pos hin]
          apply ih prevBlank _ prev hnn.2
          · omega
          · intro h; have := hopen h; omega
          · intro h; have := hblank h; omega
        · rw [if_neg hin]
          by_cases hpb : prevBlank = true
          · rw [if_pos hpb]
            apply ih prevBlank _ prev hnn.2
            · omega
            · intro h; have := hopen h; omega
            · intro h; have := hblank h; omega
          · rw [if_neg hpb]
            apply List.Chain.cons
            · constructor
              · intro hcon
                have := hopen hcon.1
                omega
              · intro hcon
                rw [hcon.2] at hst
                simp at hst
            · apply ih true _ line hnn.2
              · omega
              · intro h
                rw [h] at hst
                simp at hst
              · intro _
                omega
      · -- non-blank line
        rw [if_neg hst]
        apply List.Chain.cons
        · constructor
          · intro hcon
            exact hst hcon.2
          · intro hcon
            have h1 := hblank hcon.1
            have h2 := braceDelta_close hcon.2
            have := hnn.1
            omega
        · apply ih false _ line hnn.2
          · exact hnn.1
          · intro h
            have := braceDelta_open h
            omega
          · intro h
            exact absurd h hst

theorem dropTrailingBlanks_isPrefixOf (ls : List (List Char)) :
    dropTrailingBlanks ls <+: ls := by
  rw [dropTrailingBlanks]
  have h := List.dropWhile_suffix (l := ls.reverse) (fun l => (pyStrip l).isEmpty)
  have h2 := List.reverse_prefix.mpr h
  rw [List.reverse_reverse] at h2
  exact h2

/-- C8 counterexample: with unbalanced braces the depth can be negative at
a `{`-only line, so the following blank line is NOT treated as inside a
function and survives: cleaning `"}\n}\n{\n\nX"` leaves a blank line
directly after the `{`-only line. -/
theorem claim_C8_cleaner_blanks_cex :
    ¬ List.Chain' okPair (cleaned_lines ("\x7d\n\x7d\n\x7b\n\nX".toList)) := by
  intro h
  have he : cleaned_lines ("\x7d\n\x7d\n\x7b\n\nX".toList) =
      [['\x7d'], ['\x7d'], ['\x7b'], [], ['X']] := by decide
  rw [he, List.chain'_cons, List.chain'_cons, List.chain'_cons] at h
  exact h.2.2.1.1 ⟨by decide, by decide⟩

/-- C8 (amended). Whenever the cleaner's running brace depth (counted on
stripped lines, signature comments skipped) never becomes negative, the
cleaned output contains no blank line directly after a `{`-only line and
no blank line directly before a `}`-only line.  Texts whose unbalanced
braces drive the depth negative can violate the property. -/
theorem claim_C8_cleaner_blanks_amended :
    ∀ code : List Char, depthsNonneg 0 (pySplitChar '\n' code) = true →
      List.Chain' okPair (cleaned_lines code) := by
  intro code h
  have hchain : List.Chain okPair ['x'] (cleanAux false 0 (pySplitChar '\n' code)) :=
    cleanAux_chain (pySplitChar '\n' code) false 0 ['x'] h (le_refl 0)
      (by decide) (by intro _; exact le_refl 0)
  have h2 : List.Chain' okPair (['x'] :: cleanAux false 0 (pySplitChar '\n' code)) :=
    hchain
  exact List.Chain'.prefix h2.tail (dropTrailingBlanks_isPrefixOf _)

/-- Witness for C8 (amended): a balanced text with blank lines outside and
inside a function body. -/
theorem claim_C8_cleaner_blanks_amended_witness :
    List.Chain' okPair (cleaned_lines ("a\n\nb\n\x7b\n\nc\n\x7d".toList)) :=
  claim_C8_cleaner_blanks_amended ("a\n\nb\n\x7b\n\nc\n\x7d".toList) (by decide)

example : clean_decompiled_code ("\x7d\n\x7d\n\x7b\n\nX".toList) =
    "\x7d\n\x7d\n\x7b\n\nX".toList := by decide

-- ============================================================
-- Claim C9: enhance_decompiled_code ignores its map arguments
-- (src/ghidra_common.py lines 421-474)
-- ============================================================

/-- Class `CppClassInfo` (src/ghidra_decompile_elf.py lines 66-76), abstracted:
method tuples are (func_name, method_name, is_virtual, vtable_index),
vtable entries are (index, func_addr, func_name). -/
structure CppClassInfo where
  name : List Char
  methods : List (List Char × List Char × Bool × Int)
  vtable_addr : Option Nat
  vtable_funcs : List (Nat × Nat × List Char)
  struct_type : Option (List Char)
  parent_class : Option (List Char)
  size : Nat

def ClassInfoMap : Type := List (List Char × CppClassInfo)

def StructInfoMap : Type := List (List Char × List Char)

def isHexDigit (c : Char) : Bool :=
  c.isDigit || ('a' ≤ c && c ≤ 'f') || ('A' ≤ c && c ≤ 'F')

def nextIsHex : List Char → Bool
  | [] => false
  | d :: _ => isHexDigit d

/-- Model of `re.findall(r"(field_0x[0-9a-fA-F]+)", code)`: left-to-right,
non-overlapping, greedy hex run.  The skip counter consumes the remainder
of an emitted match. -/
def findFieldsAux : Nat → List Char → List (List Char)
  | _+1, [] => []
  | n+1, _ :: rest => findFieldsAux n rest
  | 0, [] => []
  | 0, c :: rest =>
      if "field_0x".toList.isPrefixOf (c :: rest) && nextIsHex ((c :: rest).drop 8) then
        ("field_0x".toList ++ ((c :: rest).drop 8).takeWhile isHexDigit) ::
          findFieldsAux
            (("field_0x".toList ++ ((c :: rest).drop 8).takeWhile isHexDigit).length - 1)
            rest
      else findFieldsAux 0 rest

def findFields (s : List Char) : List (List Char) := findFieldsAux 0 s

/-- The advisory comment inserted for many unknown fields (lines 453-456). -/
def fieldHint (n : Nat) : List Char :=
  "// NOTE: ".toList ++ (Nat.repr n).toList ++
    " unknown struct fields accessed - consider defining struct type\n".toList

/-- Lines 448-462: if more than 3 distinct `field_0xNN` tokens occur,
insert the hint right after the first `{` (only when its index is > 0). -/
def insertFieldHint (code : List Char) : List Char :=
  if 3 < (findFields code).dedup.length then
    match code.findIdx? (fun c => c = '\x7b') with
    | some i =>
        if 0 < i then
          code.take (i + 1) ++ '\n' :: fieldHint (findFields code).dedup.length ++
            code.drop (i + 1)
        else code
    | none => code
  else code

/-- Consume one expected literal character. -/
def pChar (c : Char) : List Char → Option (List Char)
  | d :: rest => if d = c then some rest else none
  | [] => none

/-- Consume `\w+` (greedy; at least one word character). -/
def pWordPlus : List Char → Option (List Char)
  | [] => none
  | d :: rest => if isWordChar d then some ((d :: rest).dropWhile isWordChar) else none

/-- Consume an optional literal character (`\*?` etc.).  The optional
characters of the vtable pattern cannot be matched by any later pattern
element, so taking them greedily when present is exact (no backtracking). -/
def pOpt (c : Char) (s : List Char) : List Char :=
  match s with
  | d :: rest => if d = c then rest else s
  | [] => s

/-- Head of the vtable-call pattern, `\(\*\*\(\w+\s*\*\*\)\(`: consume it
and return the remainder. -/
def parseVtHead (s : List Char) : Option (List Char) :=
  (pChar '(' s).bind fun s1 =>
  (pChar '*' s1).bind fun s2 =>
  (pChar '*' s2).bind fun s3 =>
  (pChar '(' s3).bind fun s4 =>
  (pWordPlus s4).bind fun s5 =>
  (pChar '*' (s5.dropWhile pyIsSpace)).bind fun s7 =>
  (pChar '*' s7).bind fun s8 =>
  (pChar ')' s8).bind fun s9 =>
  pChar '(' s9

/-- Tail of the vtable-call pattern,
`\*?\(?(\w+)\)?\s*\+\s*(0x[0-9a-fA-F]+)\)\)`: consume it and return the
offset group together with the remainder. -/
def parseVtTail (s10 : List Char) : Option (List Char × List Char) :=
  (pWordPlus (pOpt '(' (pOpt '*' s10))).bind fun s13 =>
  (pChar '+' ((pOpt ')' s13).dropWhile pyIsSpace)).bind fun s16 =>
  (pChar '0' (s16.dropWhile pyIsSpace)).bind fun s18 =>
  (pChar 'x' s18).bind fun s19 =>
  match s19.takeWhile isHexDigit with
  | [] => none
  | hex =>
    (pChar ')' (s19.dropWhile isHexDigit)).bind fun s21 =>
    (pChar ')' s21).bind fun s22 =>
    some ('0' :: 'x' :: hex, s22)

/-- Match the vtable-call pattern
`\(\*\*\(\w+\s*\*\*\)\(\*?\(?(\w+)\)?\s*\+\s*(0x[0-9a-fA-F]+)\)\)` at the
start of `s`; on success return the match length and the offset group. -/
def parseVt (s : List Char) : Option (Nat × List Char) :=
  (parseVtHead s).bind fun s10 =>
  (parseVtTail s10).bind fun p =>
  some (s.length - p.2.length, p.1)

/-- Model of `re.sub(vtable_pattern, vtable_replacer, enhanced)`: append
` /* vtable[<offset>] */` after every match (lines 464-472). -/
def subVtAux : Nat → List Char → List Char
  | _+1, [] => []
  | n+1, _ :: rest => subVtAux n rest
  | 0, [] => []
  | 0, c :: rest =>
      match parseVt (c :: rest) with
      | some (len, off) =>
          (c :: rest).take len ++ " /* vtable[".toList ++ off ++ "] */".toList ++
            subVtAux (len - 1) rest
      | none => c :: subVtAux 0 rest

def annotateVtCalls (s : List Char) : List Char := subVtAux 0 s

/-- Function `enhance_decompiled_code` (lines 421-474): the falsy-input guard, the
unknown-field hint insertion and the vtable-call annotation.  The
`class_info_map` and `struct_info_map` parameters are accepted but never
read by either rewrite. -/
def enhance_decompiled_code (code : List Char) (class_info_map : ClassInfoMap)
    (struct_info_map : StructInfoMap) : List Char :=
  if code = [] then code
  else annotateVtCalls (insertFieldHint code)

example : annotateVtCalls ("(**(code **)(*this + 0x1c))(x);".toList) =
    "(**(code **)(*this + 0x1c)) /* vtable[0x1c] */(x);".toList := by decide

example : insertFieldHint ("f()\x7bfield_0x1;field_0x2;field_0x3;\x7d".toList) =
    "f()\x7bfield_0x1;field_0x2;field_0x3;\x7d".toList := by decide

/-- C9. `enhance_decompiled_code` depends only on the code text: calls
with the same code and arbitrary class/struct maps agree, since both
rewrites (field-hint insertion and vtable-call annotation) read only the
code. -/
theorem claim_C9_enhance_map_independent :
    ∀ (code : List Char) (m1 m2 : ClassInfoMap) (s1 s2 : StructInfoMap),
      enhance_decompiled_code code m1 s1 = enhance_decompiled_code code m2 s2 :=
  fun _ _ _ _ _ => rfl

-- ============================================================
-- Claim C1: vtable entry parsing (src/ghidra_decompile_elf.py 109-197)
-- ============================================================

/-- The entry-scanning loop of `analyze_vtables` (lines 165-192).  One
list element per pointer-sized word starting at the vtable symbol:
`some (addr, name)` when `listing.getFunctionAt` resolves the word to a
function, `none` otherwise.  `index` and `current_addr` advance in
lockstep, so consuming the list models advancing the address; running
past the end models the memory-read exception (`except: break`).
`max_entries = 100` caps the INDEX, and a non-function word breaks the
scan only when `index > 2`. -/
def vt_loop : Nat → List (Option (Nat × List Char)) → List (Nat × Nat × List Char)
  | _, [] => []
  | index, w :: rest =>
      if index < 100 then
        match w with
        | some af => (index, af.1, af.2) :: vt_loop (index + 1) rest
        | none => if 2 < index then [] else vt_loop (index + 1) rest
      else []

def vt_parse_entries (slots : List (Option (Nat × List Char))) :
    List (Nat × Nat × List Char) := vt_loop 0 slots

/-- The entries a run of function words starting at scan index `i`
produces: sequential indices paired with each word's address and name. -/
def entriesFrom (i : Nat) : List (Nat × List Char) → List (Nat × Nat × List Char)
  | [] => []
  | af :: fs => (i, af.1, af.2) :: entriesFrom (i + 1) fs

theorem vt_loop_funcs :
    ∀ (funcs : List (Nat × List Char)) (i : Nat), i + funcs.length ≤ 100 →
      vt_loop i (funcs.map some) = entriesFrom i funcs := by
  intro funcs
  induction funcs with
  | nil =>
    intro i _
    rfl
  | cons af fs ih =>
    intro i hb
    rw [List.length_cons] at hb
    have hi : i < 100 := by omega
    rw [List.map_cons, vt_loop, if_pos hi, entriesFrom]
    rw [ih (i + 1) (by omega)]

theorem entriesFrom_fst :
    ∀ (funcs : List (Nat × List Char)) (i : Nat),
      (entriesFrom i funcs).map (fun e => e.1) =
        (List.range funcs.length).map (fun k => k + i) := by
  intro funcs
  induction funcs with
  | nil => intro i; rfl
  | cons af fs ih =>
    intro i
    rw [entriesFrom, List.map_cons, List.length_cons, List.range_succ_eq_map,
      List.map_cons, ih (i + 1), List.map_map]
    refine congrArg₂ _ (Nat.zero_add i).symm ?_
    apply List.map_congr_left
    intro a _
    simp
    omega

theorem entriesFrom_vals :
    ∀ (funcs : List (Nat × List Char)) (i : Nat),
      (entriesFrom i funcs).map (fun e => (e.2.1, e.2.2)) = funcs := by
  intro funcs
  induction funcs with
  | nil => intro i; rfl
  | cons af fs ih =>
    intro i
    rw [entriesFrom, List.map_cons, ih (i + 1)]

/-- C1 counterexample: a synthetic vtable of 2 RTTI-like non-function
words followed by N = 1 function word yields the single entry with INDEX
2 — not index 0 as the claim's "indexed 0..N-1" requires (the scan index
also runs over the skipped RTTI slots). -/
theorem claim_C1_vtable_indexing_cex :
    vt_parse_entries [none, none, some (4096, "f".toList)] =
      [(2, 4096, "f".toList)] ∧
    vt_parse_entries [none, none, some (4096, "f".toList)] ≠
      [(0, 4096, "f".toList)] := by decide

/-- C1 (amended). For a synthetic vtable with 2 leading non-function
words followed by N function words, the scan records exactly the N
functions in order, indexed 2..N+1 (not 0..N-1) — provided N ≤ 98, since
the 100-entry safety cap applies to the scan index, which includes the two
RTTI slots. -/
theorem claim_C1_vtable_indexing_amended :
    ∀ (funcs : List (Nat × List Char)), funcs.length ≤ 98 →
      vt_parse_entries ([none, none] ++ funcs.map some) = entriesFrom 2 funcs ∧
      (entriesFrom 2 funcs).map (fun e => e.1) =
        (List.range funcs.length).map (fun k => k + 2) ∧
      (entriesFrom 2 funcs).map (fun e => (e.2.1, e.2.2)) = funcs := by
  intro funcs hb
  refine ⟨?_, entriesFrom_fst funcs 2, entriesFrom_vals funcs 2⟩
  have h0 : vt_parse_entries ([none, none] ++ funcs.map some) =
      vt_loop 2 (funcs.map some) := rfl
  rw [h0, vt_loop_funcs funcs 2 (by omega)]

/-- Witness for C1 (amended): three function words after the two RTTI
slots give entries indexed 2, 3, 4. -/
theorem claim_C1_vtable_indexing_amended_witness :
    vt_parse_entries ([none, none] ++
        [(4096, "a".toList), (4100, "b".toList), (4104, "c".toList)].map some) =
      entriesFrom 2 [(4096, "a".toList), (4100, "b".toList), (4104, "c".toList)] ∧
    (entriesFrom 2 [(4096, "a".toList), (4100, "b".toList), (4104, "c".toList)]).map
        (fun e => e.1) =
      (List.range 3).map (fun k => k + 2) ∧
    (entriesFrom 2 [(4096, "a".toList), (4100, "b".toList), (4104, "c".toList)]).map
        (fun e => (e.2.1, e.2.2)) =
      [(4096, "a".toList), (4100, "b".toList), (4104, "c".toList)] := by
  have h := claim_C1_vtable_indexing_amended
    [(4096, "a".toList), (4100, "b".toList), (4104, "c".toList)] (by decide)
  exact ⟨h.1, by simpa using h.2.1, h.2.2⟩

-- ============================================================
-- Claim C5: virtuality inference (src/ghidra_decompile_elf.py 79-106,
-- 200-246)
-- ============================================================

/-- A reference to a function's entry point: whether its reference type
is a data reference, and the name of the memory block it comes from. -/
structure DataRef where
  is_data : Bool
  block : Option (List Char)

/-- The slice of a Ghidra function that `is_virtual_method` reads: entry
point, calling-convention name, and the references to the entry point. -/
structure GFunction where
  entry : Nat
  calling_conv : Option (List Char)
  data_refs : List DataRef

/-- Function `is_virtual_method` (lines 79-106): thiscall-like convention, or a
data reference from .rodata/.data/.data.rel.ro. -/
def is_virtual_method (f : GFunction) : Bool :=
  (match f.calling_conv with
   | some cc => pyContains "thiscall".toList (pyLower cc)
   | none => false) ||
  f.data_refs.any (fun r => r.is_data &&
    (match r.block with
     | some b => b = ".rodata".toList || b = ".data".toList ||
         b = ".data.rel.ro".toList
     | none => false))

/-- A discovered vtable as `analyze_vtables` returns it: optional derived
class name and the resolved entries (index, func_addr, name). -/
structure VTableInfo where
  class_name : Option (List Char)
  entries : List (Nat × Nat × List Char)

/-- The vtable-matching loop of `analyze_cpp_classes` (lines 226-232):
for each vtable whose class name equals the method's class, the first
entry whose address equals the function's entry point sets
`is_virtual = True` and `vtable_index = idx` (breaking the inner loop). -/
def method_vt_fold (f_entry : Nat) (cls : List Char) :
    (Bool × Int) → List VTableInfo → (Bool × Int)
  | st, [] => st
  | st, vt :: rest =>
      method_vt_fold f_entry cls
        (if vt.class_name = some cls then
          match vt.entries.find? (fun e => e.2.1 = f_entry) with
          | some e => (true, (e.1 : Int))
          | none => st
        else st) rest

/-- The virtuality fields `(is_virtual, vtable_index)` recorded for one
classified method (lines 221-232): `is_virtual_method` seeds the state,
`vtable_index` starts at -1, then every discovered vtable is folded in. -/
def method_virtual_fields (f : GFunction) (cls : List Char)
    (vtables : List VTableInfo) : Bool × Int :=
  method_vt_fold f.entry cls (is_virtual_method f, -1) vtables

theorem method_vt_fold_preserves (f_entry : Nat) (cls : List Char) :
    ∀ (vts : List VTableInfo) (st : Bool × Int),
      st.1 = true → 0 ≤ st.2 →
      (method_vt_fold f_entry cls st vts).1 = true ∧
      0 ≤ (method_vt_fold f_entry cls st vts).2 := by
  intro vts
  induction vts with
  | nil => intro st h1 h2; exact ⟨h1, h2⟩
  | cons vt rest ih =>
    intro st h1 h2
    rw [method_vt_fold]
    by_cases hcls : vt.class_name = some cls
    · rw [if_pos hcls]
      cases hf : vt.entries.find? (fun e => e.2.1 = f_entry) with
      | some e => exact ih (true, (e.1 : Int)) rfl (Int.ofNat_nonneg e.1)
      | none => exact ih st h1 h2
    · rw [if_neg hcls]
      exact ih st h1 h2

theorem method_vt_fold_matched (f_entry : Nat) (cls : List Char) :
    ∀ (vts : List VTableInfo) (st : Bool × Int),
      (∃ vt ∈ vts, vt.class_name = some cls ∧ ∃ e ∈ vt.entries, e.2.1 = f_entry) →
      (method_vt_fold f_entry cls st vts).1 = true ∧
      0 ≤ (method_vt_fold f_entry cls st vts).2 := by
  intro vts
  induction vts with
  | nil =>
    intro st h
    rcases h with ⟨vt, hmem, _⟩
    simp at hmem
  | cons vt0 rest ih =>
    intro st h
    rcases h with ⟨vt, hmem, hcls, e, hemem, haddr⟩
    rw [method_vt_fold]
    rcases List.mem_cons.mp hmem with hv | hv
    · subst hv
      rw [if_pos hcls]
      have hsome : (vt.entries.find? (fun e => e.2.1 = f_entry)).isSome = true := by
        rw [List.find?_isSome]
        exact ⟨e, hemem, by rw [decide_eq_true_eq]; exact haddr⟩
      cases hf : vt.entries.find? (fun e => e.2.1 = f_entry) with
      | none => rw [hf] at hsome; simp at hsome
      | some e' =>
        exact method_vt_fold_preserves f_entry cls rest (true, (e'.1 : Int)) rfl
          (Int.ofNat_nonneg e'.1)
    · by_cases hcls0 : vt0.class_name = some cls
      · rw [if_pos hcls0]
        cases hf : vt0.entries.find? (fun e => e.2.1 = f_entry) with
        | some e' =>
          exact method_vt_fold_preserves f_entry cls rest (true, (e'.1 : Int)) rfl
            (Int.ofNat_nonneg e'.1)
        | none => exact ih st ⟨vt, hv, hcls, e, hemem, haddr⟩
      · rw [if_neg hcls0]
        exact ih st ⟨vt, hv, hcls, e, hemem, haddr⟩

/-- C5. Virtuality signals are independent and any one suffices: (a) a
thiscall-like calling convention makes `is_virtual_method` true for ANY
reference list, including none at all; (b) a function whose entry address
appears among the entries of a discovered vtable whose class name matches
the method's class is recorded with `is_virtual = True` and
`vtable_index >= 0` — the matched entry's index overrides the initial -1. -/
theorem claim_C5_virtuality_signals :
    (∀ (entry : Nat) (cc : List Char) (refs : List DataRef),
      pyContains "thiscall".toList (pyLower cc) = true →
      is_virtual_method ⟨entry, some cc, refs⟩ = true) ∧
    (∀ (f : GFunction) (cls : List Char) (vtables : List VTableInfo),
      (∃ vt ∈ vtables, vt.class_name = some cls ∧
        ∃ e ∈ vt.entries, e.2.1 = f.entry) →
      (method_virtual_fields f cls vtables).1 = true ∧
      0 ≤ (method_virtual_fields f cls vtables).2) := by
  constructor
  · intro entry cc refs h
    rw [is_virtual_method]
    show (pyContains "thiscall".toList (pyLower cc) || _) = true
    rw [h, Bool.true_or]
  · intro f cls vtables h
    exact method_vt_fold_matched f.entry cls vtables (is_virtual_method f, -1) h

/-- Witness for C5: a `__thiscall` function with zero references, and a
function matched at index 1 of a vtable for its class. -/
theorem claim_C5_virtuality_signals_witness :
    is_virtual_method ⟨4096, some ("__thiscall".toList), []⟩ = true ∧
    ((method_virtual_fields ⟨4096, none, []⟩ ("Foo".toList)
        [⟨some ("Foo".toList), [(0, 8192, "a".toList), (1, 4096, "m".toList)]⟩]).1 =
      true ∧
     0 ≤ (method_virtual_fields ⟨4096, none, []⟩ ("Foo".toList)
        [⟨some ("Foo".toList), [(0, 8192, "a".toList), (1, 4096, "m".toList)]⟩]).2) :=
  ⟨claim_C5_virtuality_signals.1 4096 ("__thiscall".toList) [] (by decide),
   claim_C5_virtuality_signals.2 ⟨4096, none, []⟩ ("Foo".toList)
     [⟨some ("Foo".toList), [(0, 8192, "a".toList), (1, 4096, "m".toList)]⟩]
     (by decide)⟩
